import Mathlib

/-!
Verification development for the RAGFlow chunking core
(`rag/nlp/__init__.py`) and the MinerU position-tag codec
(`deepdoc/parser/mineru_parser.py`).

Text is shallowly embedded as `List Char` (named `Str` below); the
collaborator-provided token counter `num_tokens_from_string` is an abstract
parameter `tok : Str → Nat` wherever a function consults it.  Python float
arithmetic on the chunking thresholds (`chunk_token_num * (100 - p) / 100.`
and `int(len * (100 - p) / 100.)`) is modelled by exact rational/natural
arithmetic (`a * 100 > b * (100 - p)` and Nat floor division), which agrees
with the float computation on all realistic magnitudes.
-/

/-- Text is modelled as a list of characters. -/
abbrev Str := List Char

/-- The backtick character, used by the delimiter mini-syntax. -/
def btick : Char := Char.ofNat 96

/-- Whitespace stripped by Python `str.strip()` (the characters relevant to
this code base: ASCII whitespace plus the ideographic and no-break spaces). -/
def isPyWs (c : Char) : Bool :=
  c = ' ' || c = '\t' || c = '\n' || c = '\r' ||
  c = Char.ofNat 11 || c = Char.ofNat 12 ||
  c = Char.ofNat 0xa0 || c = Char.ofNat 0x3000

/-- Python `s.strip()`. -/
def pyStrip (s : Str) : Str :=
  ((s.dropWhile isPyWs).reverse.dropWhile isPyWs).reverse

/-- Python `s.split(sep)` for a single-character separator. -/
def splitOnChar (sep : Char) : Str → List Str
  | [] => [[]]
  | c :: rest =>
    let r := splitOnChar sep rest
    if c = sep then [] :: r
    else
      match r with
      | h :: t => (c :: h) :: t
      | [] => [[c]]

/-- Decimal digit character for a value below ten. -/
def digitCh (n : Nat) : Char := Char.ofNat (48 + n)

/-- Fuel-driven digit printer; any `fuel > n` is enough, because the value
shrinks strictly at every recursive step. -/
def natDigitsF : Nat → Nat → Str
  | 0, _ => []
  | fuel + 1, n =>
    if n < 10 then [digitCh n]
    else natDigitsF fuel (n / 10) ++ [digitCh (n % 10)]

/-- Decimal digits of a natural number, most significant first
(Python `str(n)` for a nonnegative int). -/
def natDigits (n : Nat) : Str := natDigitsF (n + 1) n

/-- Python `int(s)` on a plain digit string: `none` (a `ValueError`)
unless the string is nonempty and all digits. -/
def parseNat (s : Str) : Option Nat :=
  if s = [] then none
  else if s.all Char.isDigit then
    some (s.foldl (fun acc c => acc * 10 + (c.toNat - 48)) 0)
  else none

/-!
## Position-tag grammar

The tag regex used by `MinerUParser.extract_positions`
(`@@[0-9-]+\t[0-9.\t]+##`).  Because the character classes exclude the
respective follow characters (`\t` after `[0-9-]+`, `#` after `[0-9.\t]+`),
the regex is matched exactly by maximal-run scanning with no backtracking.
-/

/-- Characters allowed in the page field of a position tag (`[0-9-]`). -/
def isPnChar (c : Char) : Bool := c.isDigit || c = '-'

/-- Characters allowed in the coordinate field of a position tag (`[0-9.\t]`). -/
def isCoordChar (c : Char) : Bool := c.isDigit || c = '.' || c = '\t'

/-- Match the body of a position tag (everything after the leading `@@`):
`[0-9-]+\t[0-9.\t]+##`.  Returns the page field, the coordinate field and
the remaining input. -/
def tagBody (s : Str) : Option ((Str × Str) × Str) :=
  match s.dropWhile isPnChar with
  | '\t' :: s2 =>
    match s2.dropWhile isCoordChar with
    | '#' :: '#' :: s3 =>
      if (s.takeWhile isPnChar).isEmpty || (s2.takeWhile isCoordChar).isEmpty then none
      else some ((s.takeWhile isPnChar, s2.takeWhile isCoordChar), s3)
    | _ => none
  | _ => none

/-- Try to read one whole position tag (`@@[0-9-]+\t[0-9.\t]+##`) at the
head of the input. -/
def matchTag : Str → Option ((Str × Str) × Str)
  | '@' :: '@' :: s => tagBody s
  | _ => none

theorem tagBody_decomp {s pn co rest : Str}
    (h : tagBody s = some ((pn, co), rest)) :
    s = pn ++ '\t' :: (co ++ '#' :: '#' :: rest) ∧ pn ≠ [] ∧ co ≠ [] ∧
      (∀ c ∈ pn, isPnChar c = true) ∧ (∀ c ∈ co, isCoordChar c = true) := by
  unfold tagBody at h
  revert h
  split
  case h_1 s2 heq =>
    split
    case h_1 s3 heq2 =>
      split
      · intro h; exact absurd h (by simp)
      · intro h
        rename_i hne
        injection h with h
        have hpn : pn = s.takeWhile isPnChar := (congrArg (fun x => x.1.1) h).symm
        have hco : co = s2.takeWhile isCoordChar := (congrArg (fun x => x.1.2) h).symm
        have hrest : rest = s3 := (congrArg (fun x => x.2) h).symm
        have hs : s = s.takeWhile isPnChar ++ '\t' :: s2 := by
          conv_lhs => rw [← List.takeWhile_append_dropWhile (p := isPnChar) (l := s)]
          rw [heq]
        have hs2 : s2 = s2.takeWhile isCoordChar ++ '#' :: '#' :: s3 := by
          conv_lhs => rw [← List.takeWhile_append_dropWhile (p := isCoordChar) (l := s2)]
          rw [heq2]
        have hstep1 : s = pn ++ '\t' :: s2 := by rw [hpn]; exact hs
        have hstep2 : s2 = co ++ '#' :: '#' :: rest := by rw [hco, hrest]; exact hs2
        refine ⟨?_, ?_, ?_, ?_, ?_⟩
        · rw [hstep1, hstep2]
        · intro hnil; rw [hpn] at hnil; simp [hnil] at hne
        · intro hnil; rw [hco] at hnil; simp [hnil] at hne
        · intro c hc; rw [hpn] at hc; exact List.mem_takeWhile_imp hc
        · intro c hc; rw [hco] at hc; exact List.mem_takeWhile_imp hc
    all_goals intro h <;> exact absurd h (by simp)
  all_goals intro h <;> exact absurd h (by simp)

theorem matchTag_shape {s : Str} {v : (Str × Str) × Str}
    (h : matchTag s = some v) :
    ∃ s', s = '@' :: '@' :: s' ∧ tagBody s' = some v := by
  unfold matchTag at h
  split at h
  · rename_i s' ; exact ⟨s', rfl, h⟩
  · exact absurd h (by simp)

theorem matchTag_rest_lt {s pn co rest : Str}
    (h : matchTag s = some ((pn, co), rest)) : rest.length < s.length := by
  obtain ⟨s', rfl, hb⟩ := matchTag_shape h
  have := (tagBody_decomp hb).1
  have hlen := congrArg List.length this
  simp at hlen ⊢
  omega

/-- Fuel-driven scanner underlying `removeTag`; `fuel ≥ s.length` makes the
fuel irrelevant (each step consumes at least one character). -/
def removeTagF : Nat → Str → Str
  | 0, s => s
  | fuel + 1, s =>
    match matchTag s with
    | some (_, rest) => removeTagF fuel rest
    | none =>
      match s with
      | [] => []
      | c :: s' => c :: removeTagF fuel s'

/-- Modelled from the spec: `RAGFlowPdfParser.remove_tag` (the class lives in
`deepdoc/parser/pdf_parser.py`, which is not part of this repository slice).
Per the spec, chunks carry position tags embedded with the fixed textual
encoding `@@<pages>\t<left>\t<right>\t<top>\t<bottom>##`, and the overlap
carry-over uses the previous chunk's *de-tagged* text; `remove_tag` deletes
every (leftmost, non-overlapping) occurrence of that tag grammar. -/
def removeTag (s : Str) : Str := removeTagF s.length s

theorem removeTagF_succ (fuel : Nat) (s : Str) :
    removeTagF (fuel + 1) s =
      match matchTag s with
      | some (_, rest) => removeTagF fuel rest
      | none =>
        match s with
        | [] => []
        | c :: s' => c :: removeTagF fuel s' := rfl

/-- A character outside the tag alphabet survives the tag-removal scanner. -/
theorem mem_removeTagF_of_not_tagchar (c : Char)
    (hc : isPnChar c = false ∧ isCoordChar c = false ∧ c ≠ '@' ∧ c ≠ '#') :
    ∀ fuel (s : Str), s.length ≤ fuel → c ∈ s → c ∈ removeTagF fuel s := by
  intro fuel
  induction fuel with
  | zero =>
    intro s hlen hmem
    interval_cases hs : s.length
    · rw [List.length_eq_zero] at hs; subst hs; exact absurd hmem (by simp)
  | succ fuel ih =>
    intro s hlen hmem
    rw [removeTagF_succ]
    cases hm : matchTag s with
    | some v =>
      obtain ⟨⟨pn, co⟩, rest⟩ := v
      simp only
      apply ih
      · have := matchTag_rest_lt hm
        omega
      -- the tag consumed only tag-alphabet characters, so `c` is in `rest`
      obtain ⟨s', hsh, hb⟩ := matchTag_shape hm
      subst hsh
      obtain ⟨hdec, _, _, hp, hq⟩ := tagBody_decomp hb
      rw [hdec] at hmem
      simp at hmem
      rcases hmem with h | h | h | h | h | h
      · exact absurd h hc.2.2.1
      · exact absurd (hp c h) (by simp [hc.1])
      · exact absurd h (by intro he; rw [he] at hc; simp [isCoordChar] at hc)
      · exact absurd (hq c h) (by simp [hc.2.1])
      · exact absurd h hc.2.2.2
      · exact h
    | none =>
      match s, hmem with
      | d :: s', hmem =>
        simp only
        simp at hmem ⊢
        rcases hmem with h | h
        · exact Or.inl h
        · exact Or.inr (ih s' (by simp at hlen; omega) h)

/-- A character outside the tag alphabet survives `removeTag`. -/
theorem mem_removeTag_of_not_tagchar (c : Char)
    (hc : isPnChar c = false ∧ isCoordChar c = false ∧ c ≠ '@' ∧ c ≠ '#')
    (s : Str) (hmem : c ∈ s) : c ∈ removeTag s :=
  mem_removeTagF_of_not_tagchar c hc s.length s (le_refl _) hmem

/-!
## Tree merger: target grouping level (`tree_merge`, lines 757-765)

`sorted_levels` is the ascending list of distinct levels assigned to the
surviving sections; `depth` is the caller's grouping depth (the
configuration surface requires `depth ≥ 1`); the plain-body sentinel is
`len(BULLET_PATTERN[bull]) + 2`.
-/

/-- The depth-clamping step of `tree_merge`:
`sorted_levels[depth - 1] if depth <= len(sorted_levels) else sorted_levels[-1]`. -/
def clampLevel (sortedLevels : List Nat) (depth : Nat) : Nat :=
  if depth ≤ sortedLevels.length then sortedLevels.getD (depth - 1) 0
  else sortedLevels.getD (sortedLevels.length - 1) 0

/-- The sentinel step-back of `tree_merge`: if the clamped target equals the
plain-body sentinel, take `sorted_levels[-2]` when more than one level is
present, else `sorted_levels[0]`. -/
def resolveTargetLevel (sortedLevels : List Nat) (depth sentinel : Nat) : Nat :=
  let target := clampLevel sortedLevels depth
  if target = sentinel then
    if 1 < sortedLevels.length then sortedLevels.getD (sortedLevels.length - 2) 0
    else sortedLevels.getD 0 0
  else target

theorem getD_mem_of_lt {L : List Nat} {i : Nat} (h : i < L.length) :
    L.getD i 0 ∈ L := by
  rw [List.getD_eq_getElem?_getD, List.getElem?_eq_getElem h]
  exact List.getElem_mem h

theorem getD_concat_self (L : List Nat) (a : Nat) :
    (L ++ [a]).getD L.length 0 = a := by
  simp [List.getD_eq_getElem?_getD, List.getElem?_append_right]

theorem sorted_le_last {L : List Nat} {a x : Nat}
    (hs : List.Pairwise (· < ·) (L ++ [a])) (hx : x ∈ L ++ [a]) : x ≤ a := by
  rcases List.mem_append.mp hx with h | h
  · exact le_of_lt ((List.pairwise_append.mp hs).2.2 x h a (by simp))
  · simp at h; omega

/-- Claim C3: in `tree_merge`, when the caller's depth exceeds the number of
distinct levels the clamped target is the deepest level present; when the
resolved target equals the plain-body sentinel it is stepped back to the
next-shallowest level present (the greatest level below the sentinel),
unless the sentinel is the only level present, in which case it is kept. -/
theorem c3_target_level_resolution (L : List Nat) (depth sentinel : Nat)
    (hs : List.Pairwise (· < ·) L) (hne : L ≠ [])
    (hub : ∀ x ∈ L, x ≤ sentinel) (hd : 1 ≤ depth) :
    (L.length < depth →
      clampLevel L depth ∈ L ∧ ∀ x ∈ L, x ≤ clampLevel L depth)
    ∧ (clampLevel L depth = sentinel → L ≠ [sentinel] →
        resolveTargetLevel L depth sentinel ∈ L ∧
        resolveTargetLevel L depth sentinel ≠ sentinel ∧
        ∀ x ∈ L, x ≠ sentinel → x ≤ resolveTargetLevel L depth sentinel)
    ∧ (L = [sentinel] → resolveTargetLevel L depth sentinel = sentinel) := by
  rcases List.eq_nil_or_concat L with rfl | ⟨L', a, hLa⟩
  · exact absurd rfl hne
  subst hLa
  simp only [List.concat_eq_append] at hs hne hub ⊢
  refine ⟨?_, ?_, ?_⟩
  · -- depth beyond the available levels: the clamp takes the deepest level
    intro hlen
    have hcl : clampLevel (L' ++ [a]) depth = a := by
      unfold clampLevel
      rw [if_neg (by omega)]
      have : (L' ++ [a]).length - 1 = L'.length := by simp
      rw [this, getD_concat_self]
    rw [hcl]
    exact ⟨by simp, fun x hx => sorted_le_last hs hx⟩
  · -- sentinel step-back with at least one shallower level present
    intro htar hnesng
    have hmem : clampLevel (L' ++ [a]) depth ∈ L' ++ [a] := by
      unfold clampLevel
      split
      · apply getD_mem_of_lt
        simp at *
        omega
      · apply getD_mem_of_lt
        simp
    have hasent : a = sentinel := by
      have h1 : clampLevel (L' ++ [a]) depth ≤ a := sorted_le_last hs hmem
      have h2 : a ≤ sentinel := hub a (by simp)
      omega
    have hLne : L' ≠ [] := by
      rintro rfl
      exact hnesng (by simpa [hasent])
    rcases List.eq_nil_or_concat L' with h | ⟨L'', b, hLb⟩
    · exact absurd h hLne
    subst hLb
    simp only [List.concat_eq_append] at hs hub htar hnesng hmem ⊢
    have hres : resolveTargetLevel ((L'' ++ [b]) ++ [a]) depth sentinel = b := by
      unfold resolveTargetLevel
      rw [if_pos htar, if_pos (by simp)]
      have hidx : ((L'' ++ [b]) ++ [a]).length - 2 = L''.length := by simp
      rw [hidx, List.append_assoc, List.getD_eq_getElem?_getD,
        List.getElem?_append_right (le_refl _)]
      simp
    rw [hres]
    have hba : b < a := by
      have := (List.pairwise_append.mp hs).2.2 b (by simp) a (by simp)
      omega
    refine ⟨by simp, by omega, ?_⟩
    intro x hx hxs
    rcases List.mem_append.mp hx with h | h
    · exact sorted_le_last (List.pairwise_append.mp hs).1 h
    · simp at h; omega
  · -- the sentinel is the only level present
    rintro heq
    have h1 : L' = [] ∧ a = sentinel := by
      rcases L' with _ | ⟨y, ys⟩
      · simpa using heq
      · exfalso
        have := congrArg List.length heq
        simp at this
    obtain ⟨rfl, rfl⟩ := h1
    have hc : clampLevel ([] ++ [a]) depth = a := by
      unfold clampLevel
      split
      · have hd1 : depth = 1 := by simp at *; omega
        subst hd1
        simp [List.getD]
      · simp [List.getD]
    unfold resolveTargetLevel
    rw [hc, if_pos rfl, if_neg (by simp)]
    simp [List.getD]

/-- Witness for C3 at a concrete level list. -/
theorem c3_target_level_resolution_witness :
    resolveTargetLevel [1, 3, 9] 5 9 ∈ [1, 3, 9] ∧
    resolveTargetLevel [1, 3, 9] 5 9 ≠ 9 ∧
    clampLevel [1, 3, 9] 5 ∈ [1, 3, 9] := by
  have h := c3_target_level_resolution [1, 3, 9] 5 9 (by decide) (by decide)
    (by decide) (by decide)
  have h2 := h.2.1 (by decide) (by decide)
  exact ⟨h2.1, h2.2.1, (h.1 (by decide)).1⟩

/-!
## Budgeted flat merger (`naive_merge`, lines 863-919)

`num_tokens_from_string` is the abstract parameter `tok`.  The running
chunk list `cks` is represented with its last (mutable) element split off:
`NMSt.last` is `cks[-1]`, `NMSt.rest` holds the closed chunks in reverse
order; the produced list is `(last :: rest).reverse`.  Token counts of
closed chunks are never read again, so only `tk_nums[-1]` is tracked.
-/

/-- Fuel-driven scanner for `re.finditer("`([^`]+)`", delimiter)`: the
backtick-quoted custom delimiter literals, in order of occurrence.
Adequate fuel is the input length. -/
def extractCustomF : Nat → Str → List Str
  | 0, _ => []
  | fuel + 1, s =>
    match s with
    | [] => []
    | c :: rest =>
      if c = btick then
        match rest.dropWhile (fun d => !(d = btick)) with
        | _ :: rest' =>
          if (rest.takeWhile (fun d => !(d = btick))).isEmpty then
            -- two adjacent backticks: the regex cannot match at `c`,
            -- scanning resumes at the next character
            extractCustomF fuel rest
          else rest.takeWhile (fun d => !(d = btick)) :: extractCustomF fuel rest'
        | [] => []
      else extractCustomF fuel rest

/-- The custom delimiter literals embedded in a delimiter specification. -/
def extractCustom (s : Str) : List Str := extractCustomF s.length s

/-- Python `sorted(set(...))` step 1: deduplicate keeping first occurrences
(the iteration order of a Python `set` is unspecified; any fixed order of
the distinct elements is a sound refinement, since the subsequent sort
keys only on length). -/
def dedupFirst (l : List Str) : List Str :=
  l.foldl (fun acc x => if x ∈ acc then acc else acc ++ [x]) []

/-- Stable insertion (descending length) for `sorted(key=len, reverse=True)`. -/
def insertByLen (x : Str) : List Str → List Str
  | [] => [x]
  | y :: ys => if x.length ≥ y.length then x :: y :: ys else y :: insertByLen x ys

/-- Python `sorted(..., key=len, reverse=True)`: longest literal first. -/
def sortLenDesc (l : List Str) : List Str := l.foldr insertByLen []

/-- The first delimiter literal (in pattern-alternation order) matching at
the current scan position — the alternation semantics of
`re.split("(d1|d2|...)", ...)` for escaped literals. -/
def findDelim (delims : List Str) (s : Str) : Option Str :=
  delims.find? (fun d => !d.isEmpty && d.isPrefixOf s)

/-- Fuel-driven splitter: the non-delimiter segments produced by
`re.split` with a capture group, with the captured delimiter occurrences
(the segments `re.fullmatch(custom_pattern, sub_sec)` skips) left out.
A segment cannot itself equal a delimiter, because the leftmost match
would have split inside it. -/
def splitSegsF (delims : List Str) : Nat → Str → Str → List Str
  | 0, s, acc => [acc.reverse ++ s]
  | fuel + 1, s, acc =>
    match s with
    | [] => [acc.reverse]
    | c :: rest =>
      match findDelim delims (c :: rest) with
      | some d => acc.reverse :: splitSegsF delims fuel ((c :: rest).drop d.length) []
      | none => splitSegsF delims fuel rest (c :: acc)

/-- Split a text on the union of custom delimiter literals, returning the
non-delimiter segments in order. -/
def splitSegs (delims : List Str) (s : Str) : List Str := splitSegsF delims s.length s []

/-- Python `t.find(pat) >= 0`: `pat` occurs as a contiguous substring of the
second argument (always true for the empty pattern). -/
def containsSub (pat : Str) : Str → Bool
  | [] => pat.isEmpty
  | c :: rest => pat.isPrefixOf (c :: rest) || containsSub pat rest

/-- One output chunk of the custom-delimiter branch: `"\n" + sub_sec`, with
the position tag appended when the segment is at least 8 tokens and the tag
is not already contained in the text. -/
def mkCustomChunk (tok : Str → Nat) (sub pos : Str) : Str :=
  let text := '\n' :: sub
  let lp := if tok text < 8 then [] else pos
  if !lp.isEmpty && !(containsSub lp text) then text ++ lp else text

/-- The custom-delimiter branch of `naive_merge`: every input text is split
on the delimiter union and each segment becomes one chunk (appended in
order); `chunk_token_num` and `overlapped_percent` are never consulted. -/
def customChunks (tok : Str → Nat) (delims : List Str)
    (sections : List (Str × Str)) : List Str :=
  sections.foldl (fun cks sp =>
    (splitSegs delims sp.1).foldl (fun cks' sub => cks' ++ [mkCustomChunk tok sub sp.2]) cks) []

/-- State of the default-mode merge loop: the running last chunk, the closed
chunks (in reverse order) and the running chunk's token count. -/
structure NMSt where
  last : Str
  rest : List Str
  lastTk : Nat

/-- The effective position tag of `add_chunk`: dropped for texts under 8
tokens. -/
def posOf (tok : Str → Nat) (t0 pos0 : Str) : Str :=
  if tok t0 < 8 then [] else pos0

/-- The overlap carry-over computed when `add_chunk` closes a chunk
(lines 884-885): the previous chunk is de-tagged and sliced from index
`int(len(overlapped) * (100 - overlapped_percent) / 100.)`. -/
def carryOf (p : Nat) (prev : Str) : Str :=
  (removeTag prev).drop ((removeTag prev).length * (100 - p) / 100)

/-- The text of a freshly opened chunk: overlap carry-over, then the new
text, then the position tag when not already contained. -/
def newChunkText (tok : Str → Nat) (p : Nat) (prev t0 pos0 : Str) : Str :=
  if containsSub (posOf tok t0 pos0) (carryOf p prev ++ t0) then carryOf p prev ++ t0
  else (carryOf p prev ++ t0) ++ posOf tok t0 pos0

/-- The text appended to the running chunk in the merge branch: the new text,
then the position tag when the running chunk does not already contain it. -/
def mergeText (tok : Str → Nat) (last t0 pos0 : Str) : Str :=
  if containsSub (posOf tok t0 pos0) last then t0 else t0 ++ posOf tok t0 pos0

/-- The `add_chunk` closure of `naive_merge` (lines 874-894).  The close
condition `tk_nums[-1] > chunk_token_num * (100 - overlapped_percent) / 100.`
is modelled exactly as `lastTk * 100 > ctn * (100 - p)`, and the carry-over
slice `overlapped[int(len(overlapped) * (100 - p) / 100.):]` as a Nat floor
division. -/
def addChunk (tok : Str → Nat) (ctn p : Nat) (st : NMSt) (t0 pos0 : Str) : NMSt :=
  if st.last = [] ∨ st.lastTk * 100 > ctn * (100 - p) then
    ⟨newChunkText tok p st.last t0 pos0, st.last :: st.rest, tok t0⟩
  else
    ⟨st.last ++ mergeText tok st.last t0 pos0, st.rest, st.lastTk + tok t0⟩

/-- One default-mode loop iteration: `add_chunk("\n" + sec, pos)`. -/
def nmStep (tok : Str → Nat) (ctn p : Nat) (st : NMSt) (sp : Str × Str) : NMSt :=
  addChunk tok ctn p st ('\n' :: sp.1) sp.2

/-- The chunk list represented by a merge-loop state (last chunk first). -/
def nmChunks (st : NMSt) : List Str := st.last :: st.rest

/-- Default (no custom delimiters) mode of `naive_merge`, seeded with
`cks = [""], tk_nums = [0]`. -/
def naiveMergeDefault (tok : Str → Nat) (ctn p : Nat)
    (sections : List (Str × Str)) : List Str :=
  (nmChunks (sections.foldl (nmStep tok ctn p) ⟨[], [], 0⟩)).reverse

/-- `naive_merge(sections, chunk_token_num, delimiter, overlapped_percent)`
for already-normalized sections (each a `(text, position_tag)` pair). -/
def naiveMerge (tok : Str → Nat) (delimiter : Str) (sections : List (Str × Str))
    (ctn p : Nat) : List Str :=
  if sections = [] then []
  else if extractCustom delimiter = [] then naiveMergeDefault tok ctn p sections
  else customChunks tok (sortLenDesc (dedupFirst (extractCustom delimiter))) sections

/-- Invariant of the default-mode loop: the seeded empty chunk stays at the
bottom; while no chunk has been closed, the running chunk is the seeded
empty one; every chunk except the seeded one contains a newline; and every
chunk is prefixed by the overlap carry-over of its predecessor. -/
def nmInv (p : Nat) (st : NMSt) : Prop :=
  (nmChunks st).getLast? = some []
  ∧ (st.rest = [] → st.last = [])
  ∧ (∀ i, i + 1 < (nmChunks st).length → '\n' ∈ (nmChunks st).getD i [])
  ∧ (∀ i, i + 2 ≤ (nmChunks st).length →
      carryOf p ((nmChunks st).getD (i + 1) []) <+: (nmChunks st).getD i [])

theorem carryOf_prefix_newChunkText (tok : Str → Nat) (p : Nat) (prev t0 pos0 : Str) :
    carryOf p prev <+: newChunkText tok p prev t0 pos0 := by
  unfold newChunkText
  split
  · exact List.prefix_append _ _
  · exact (List.prefix_append _ _).trans (List.prefix_append _ _)

theorem newline_mem_newChunkText (tok : Str → Nat) (p : Nat) (prev t0 pos0 : Str)
    (h : '\n' ∈ t0) : '\n' ∈ newChunkText tok p prev t0 pos0 := by
  unfold newChunkText
  split
  · exact List.mem_append.mpr (Or.inr h)
  · exact List.mem_append.mpr (Or.inl (List.mem_append.mpr (Or.inr h)))

theorem nmStep_inv (tok : Str → Nat) (ctn p : Nat) (st : NMSt) (sp : Str × Str)
    (h : nmInv p st) : nmInv p (nmStep tok ctn p st sp) := by
  obtain ⟨h1, h2, h3, h4⟩ := h
  unfold nmStep addChunk
  split
  case isTrue hcond =>
    -- a new chunk is opened on top of the closed ones
    refine ⟨?_, ?_, ?_, ?_⟩
    · show (_ :: st.last :: st.rest).getLast? = some []
      rw [List.getLast?_cons_cons]
      exact h1
    · intro hre; exact absurd hre (by simp)
    · intro i hi
      match i with
      | 0 =>
        rw [show (nmChunks ⟨newChunkText tok p st.last ('\n' :: sp.1) sp.2,
              st.last :: st.rest, tok ('\n' :: sp.1)⟩).getD 0 [] =
            newChunkText tok p st.last ('\n' :: sp.1) sp.2 from rfl]
        exact newline_mem_newChunkText tok p st.last _ sp.2 (by simp)
      | j + 1 =>
        have := h3 j (by simpa [nmChunks] using Nat.lt_of_succ_lt_succ (by simpa [nmChunks] using hi))
        simpa [nmChunks, List.getD_cons_succ] using this
    · intro i hi
      match i with
      | 0 =>
        show carryOf p ((_ :: nmChunks st).getD 1 []) <+: _
        rw [List.getD_cons_succ, show (nmChunks st).getD 0 [] = st.last from rfl]
        exact carryOf_prefix_newChunkText tok p st.last _ sp.2
      | j + 1 =>
        have hb : j + 2 ≤ (nmChunks st).length := by
          simp [nmChunks] at hi ⊢; omega
        have := h4 j hb
        simpa [nmChunks, List.getD_cons_succ] using this
  case isFalse hcond =>
    -- the text is appended to the running chunk
    have hlast : st.last ≠ [] := fun he => hcond (Or.inl he)
    have hrest : st.rest ≠ [] := fun he => hlast (h2 he)
    obtain ⟨r0, rs, hr⟩ : ∃ r0 rs, st.rest = r0 :: rs := by
      cases hre : st.rest with
      | nil => exact absurd hre hrest
      | cons r0 rs => exact ⟨r0, rs, rfl⟩
    refine ⟨?_, ?_, ?_, ?_⟩
    · show (_ :: st.rest).getLast? = some []
      rw [hr, List.getLast?_cons_cons]
      rw [nmChunks, hr, List.getLast?_cons_cons] at h1
      exact h1
    · intro hre; rw [hr] at hre; exact absurd hre (by simp)
    · intro i hi
      match i with
      | 0 =>
        show '\n' ∈ st.last ++ _
        have := h3 0 (by simp [nmChunks, hr])
        rw [show (nmChunks st).getD 0 [] = st.last from rfl] at this
        exact List.mem_append.mpr (Or.inl this)
      | j + 1 =>
        have := h3 (j + 1) (by simp [nmChunks] at hi ⊢; omega)
        simpa [nmChunks, List.getD_cons_succ] using this
    · intro i hi
      match i with
      | 0 =>
        show carryOf p ((_ :: st.rest).getD 1 []) <+: st.last ++ _
        rw [List.getD_cons_succ]
        have := h4 0 (by simp [nmChunks, hr])
        rw [show (nmChunks st).getD 0 [] = st.last from rfl] at this
        rw [show (nmChunks st).getD 1 [] = st.rest.getD 0 [] from rfl] at this
        exact this.trans (List.prefix_append _ _)
      | j + 1 =>
        have := h4 (j + 1) (by simp [nmChunks] at hi ⊢; omega)
        simpa [nmChunks, List.getD_cons_succ] using this

theorem nmFold_inv (tok : Str → Nat) (ctn p : Nat) (sections : List (Str × Str)) :
    ∀ st : NMSt, nmInv p st → nmInv p (sections.foldl (nmStep tok ctn p) st) := by
  induction sections with
  | nil => intro st h; exact h
  | cons sp rest ih =>
    intro st h
    exact ih _ (nmStep_inv tok ctn p st sp h)

theorem nmInv_init (p : Nat) : nmInv p ⟨[], [], 0⟩ := by
  refine ⟨rfl, fun _ => rfl, ?_, ?_⟩
  · intro i hi; simp [nmChunks] at hi
  · intro i hi; simp [nmChunks] at hi

theorem nmStep_rest_ne (tok : Str → Nat) (ctn p : Nat) (st : NMSt) (sp : Str × Str)
    (h : nmInv p st) : (nmStep tok ctn p st sp).rest ≠ [] := by
  unfold nmStep addChunk
  split
  · simp
  · rename_i hcond
    have hlast : st.last ≠ [] := fun he => hcond (Or.inl he)
    exact fun he => hlast (h.2.1 he)

theorem getD_reverse {α : Type} (l : List α) (d : α) (i : Nat) (h : i < l.length) :
    l.reverse.getD i d = l.getD (l.length - 1 - i) d := by
  rw [List.getD_eq_getElem?_getD, List.getD_eq_getElem?_getD, List.getElem?_reverse h]

/-- A concrete token counter for witnesses (the tokenizer is an abstract
collaborator; the claims below hold for every `tok`). -/
def tokByLength : Str → Nat := List.length

/-- The default delimiter of `naive_merge` (no backtick-quoted literals). -/
def c1delim : Str := "\n。；！？".toList

/-- Two sections driving one chunk closure at `chunk_token_num = 5`. -/
def c1secs : List (Str × Str) := [("abcdefghi".toList, []), ("xyz".toList, [])]

/-- Claim C10: in default mode the seeded empty chunk `""` is never removed:
for every non-empty section list the first returned chunk is the empty
string, and the first real input opens a second chunk rather than filling
the first. -/
theorem c10_first_chunk_is_empty (tok : Str → Nat) (delimiter : Str)
    (sections : List (Str × Str)) (ctn p : Nat)
    (hne : sections ≠ []) (hdef : extractCustom delimiter = []) :
    (naiveMerge tok delimiter sections ctn p).head? = some [] ∧
    2 ≤ (naiveMerge tok delimiter sections ctn p).length := by
  unfold naiveMerge
  rw [if_neg hne, if_pos hdef]
  unfold naiveMergeDefault
  have hinv : nmInv p (sections.foldl (nmStep tok ctn p) ⟨[], [], 0⟩) :=
    nmFold_inv tok ctn p sections _ (nmInv_init p)
  constructor
  · rw [List.head?_reverse]
    exact hinv.1
  · rcases List.eq_nil_or_concat sections with rfl | ⟨as, a, hcat⟩
    · exact absurd rfl hne
    have hfin : sections.foldl (nmStep tok ctn p) ⟨[], [], 0⟩ =
        nmStep tok ctn p (as.foldl (nmStep tok ctn p) ⟨[], [], 0⟩) a := by
      rw [hcat, List.concat_eq_append, List.foldl_append]
      rfl
    have hrest : (sections.foldl (nmStep tok ctn p) ⟨[], [], 0⟩).rest ≠ [] := by
      rw [hfin]
      exact nmStep_rest_ne tok ctn p _ a (nmFold_inv tok ctn p as _ (nmInv_init p))
    have : (nmChunks (sections.foldl (nmStep tok ctn p) ⟨[], [], 0⟩)).length =
        (sections.foldl (nmStep tok ctn p) ⟨[], [], 0⟩).rest.length + 1 := by
      simp [nmChunks]
    rw [List.length_reverse, this]
    have := List.length_pos.mpr hrest
    omega

/-- Witness for C10 at a concrete run. -/
theorem c10_first_chunk_is_empty_witness :
    (naiveMerge tokByLength c1delim [("hello".toList, [])] 128 0).head? = some [] ∧
    2 ≤ (naiveMerge tokByLength c1delim [("hello".toList, [])] 128 0).length :=
  c10_first_chunk_is_empty tokByLength c1delim [("hello".toList, [])] 128 0
    (by simp) (by decide)

/-- Claim C1 (amended): in default mode with `0 < p < 100`, every chunk
opened after the first real chunk begins with a non-empty tail of the
previous chunk's de-tagged text, but the carried tail's length is
`L - ⌊L·(100-p)/100⌋` (about `p/100` of the de-tagged length `L`), not the
`⌊L·(100-p)/100⌋` the claim states. -/
theorem c1_overlap_carry (tok : Str → Nat) (delimiter : Str)
    (sections : List (Str × Str)) (ctn p : Nat)
    (hp0 : 0 < p) (hp1 : p < 100) (hdef : extractCustom delimiter = []) :
    ∀ i, 2 ≤ i → i < (naiveMerge tok delimiter sections ctn p).length →
      carryOf p ((naiveMerge tok delimiter sections ctn p).getD (i - 1) []) ≠ [] ∧
      carryOf p ((naiveMerge tok delimiter sections ctn p).getD (i - 1) []) <+:
        (naiveMerge tok delimiter sections ctn p).getD i [] ∧
      (carryOf p ((naiveMerge tok delimiter sections ctn p).getD (i - 1) [])).length =
        (removeTag ((naiveMerge tok delimiter sections ctn p).getD (i - 1) [])).length -
          (removeTag ((naiveMerge tok delimiter sections ctn p).getD (i - 1) [])).length
            * (100 - p) / 100 := by
  intro i hi2 hilen
  have hsne : sections ≠ [] := by
    intro h
    rw [h] at hilen
    simp [naiveMerge] at hilen
  rw [naiveMerge, if_neg hsne, if_pos hdef] at hilen ⊢
  rw [naiveMergeDefault] at hilen ⊢
  have hinv : nmInv p (sections.foldl (nmStep tok ctn p) ⟨[], [], 0⟩) :=
    nmFold_inv tok ctn p sections _ (nmInv_init p)
  unfold nmInv at hinv
  set R := nmChunks (sections.foldl (nmStep tok ctn p) ⟨[], [], 0⟩) with hR
  rw [List.length_reverse] at hilen
  have e_i : R.reverse.getD i [] = R.getD (R.length - 1 - i) [] :=
    getD_reverse R [] i (by omega)
  have e_i1 : R.reverse.getD (i - 1) [] = R.getD (R.length - 1 - (i - 1)) [] :=
    getD_reverse R [] (i - 1) (by omega)
  have harith : R.length - 1 - (i - 1) = (R.length - 1 - i) + 1 := by omega
  rw [e_i, e_i1, harith]
  have hcarry := hinv.2.2.2 (R.length - 1 - i) (by omega)
  have hnl := hinv.2.2.1 ((R.length - 1 - i) + 1) (by omega)
  have hnlov : '\n' ∈ removeTag (R.getD ((R.length - 1 - i) + 1) []) :=
    mem_removeTag_of_not_tagchar '\n' (by decide) _ hnl
  have hovne : removeTag (R.getD ((R.length - 1 - i) + 1) []) ≠ [] :=
    List.ne_nil_of_mem hnlov
  have hovpos : 0 < (removeTag (R.getD ((R.length - 1 - i) + 1) [])).length :=
    List.length_pos.mpr hovne
  have hlt : (removeTag (R.getD ((R.length - 1 - i) + 1) [])).length * (100 - p) / 100 <
      (removeTag (R.getD ((R.length - 1 - i) + 1) [])).length := by
    rw [Nat.div_lt_iff_lt_mul (by omega : 0 < 100)]
    have := (Nat.mul_lt_mul_left hovpos).mpr (show 100 - p < 100 by omega)
    omega
  refine ⟨?_, ?_, ?_⟩
  · unfold carryOf
    rw [Ne, List.drop_eq_nil_iff]
    omega
  · exact hcarry
  · unfold carryOf
    rw [List.length_drop]

/-- Counterexample to claim C1 as stated: with `overlapped_percent = 20` and
previous chunk `"\nabcdefghi"` (de-tagged length 10), the claim predicts a
carried tail of length `⌊10·80/100⌋ = 8`, but the next chunk `"hi\nxyz"`
does not begin with that 8-character tail (the code carries only the last
`10 - 8 = 2` characters). -/
theorem c1_overlap_carry_counterexample :
    ¬ ((removeTag ((naiveMerge tokByLength c1delim c1secs 5 20).getD 1 [])).drop
        ((removeTag ((naiveMerge tokByLength c1delim c1secs 5 20).getD 1 [])).length -
          (removeTag ((naiveMerge tokByLength c1delim c1secs 5 20).getD 1 [])).length
            * (100 - 20) / 100)
      <+: (naiveMerge tokByLength c1delim c1secs 5 20).getD 2 []) := by decide

/-- Witness for the amended C1 at a concrete run (the carried tail is the
non-empty suffix `"hi"`). -/
theorem c1_overlap_carry_witness :
    carryOf 20 ((naiveMerge tokByLength c1delim c1secs 5 20).getD 1 []) ≠ [] ∧
    carryOf 20 ((naiveMerge tokByLength c1delim c1secs 5 20).getD 1 []) <+:
      (naiveMerge tokByLength c1delim c1secs 5 20).getD 2 [] :=
  let h := c1_overlap_carry tokByLength c1delim c1secs 5 20 (by decide) (by decide)
    (by decide) 2 (by decide) (by decide)
  ⟨h.1, h.2.1⟩

theorem foldl_append_map {α β : Type} (f : α → β) (l : List α) :
    ∀ acc : List β, l.foldl (fun cks x => cks ++ [f x]) acc = acc ++ l.map f := by
  induction l with
  | nil => intro acc; simp
  | cons x xs ih =>
    intro acc
    simp only [List.foldl_cons, List.map_cons]
    rw [ih]
    simp

theorem customChunks_eq_flatMap (tok : Str → Nat) (delims : List Str)
    (sections : List (Str × Str)) :
    customChunks tok delims sections =
      sections.flatMap (fun sp =>
        (splitSegs delims sp.1).map (fun sub => mkCustomChunk tok sub sp.2)) := by
  unfold customChunks
  suffices h : ∀ acc : List Str,
      sections.foldl (fun cks sp =>
        (splitSegs delims sp.1).foldl (fun cks' sub => cks' ++ [mkCustomChunk tok sub sp.2]) cks) acc
      = acc ++ sections.flatMap (fun sp =>
          (splitSegs delims sp.1).map (fun sub => mkCustomChunk tok sub sp.2)) by
    simpa using h []
  induction sections with
  | nil => intro acc; simp
  | cons sp rest ih =>
    intro acc
    simp only [List.foldl_cons, List.flatMap_cons]
    rw [foldl_append_map, ih]
    simp

theorem mkCustomChunk_no_pos (tok : Str → Nat) (sub : Str) :
    mkCustomChunk tok sub [] = '\n' :: sub := by
  unfold mkCustomChunk
  simp

/-- The C2 delimiter specification: the backtick-quoted literal `\n\n`. -/
def c2delim : Str := [btick, '\n', '\n', btick]

/-- The C2 input text `"a\n\nb\n\nc"`. -/
def c2input : Str := "a\n\nb\n\nc".toList

/-- Claim C2: with the backtick-quoted delimiter `\n\n`, the single input
`"a\n\nb\n\nc"` always yields exactly `["\na", "\nb", "\nc"]`; in
custom-delimiter mode every non-delimiter segment of every input becomes
exactly one chunk and the token budget `chunk_token_num` is never
consulted. -/
theorem c2_custom_hard_split (tok : Str → Nat) :
    (∀ ctn p, naiveMerge tok c2delim [(c2input, [])] ctn p =
      ["\na".toList, "\nb".toList, "\nc".toList])
    ∧ (∀ (delimiter : Str) (sections : List (Str × Str)) (ctn ctn' p : Nat),
        extractCustom delimiter ≠ [] →
        naiveMerge tok delimiter sections ctn p =
          sections.flatMap (fun sp =>
            (splitSegs (sortLenDesc (dedupFirst (extractCustom delimiter))) sp.1).map
              (fun sub => mkCustomChunk tok sub sp.2)) ∧
        (naiveMerge tok delimiter sections ctn p).length =
          (sections.map (fun sp =>
            (splitSegs (sortLenDesc (dedupFirst (extractCustom delimiter))) sp.1).length)).sum ∧
        naiveMerge tok delimiter sections ctn p = naiveMerge tok delimiter sections ctn' p) := by
  have hgen : ∀ (delimiter : Str) (sections : List (Str × Str)) (ctn p : Nat),
      extractCustom delimiter ≠ [] →
      naiveMerge tok delimiter sections ctn p =
        sections.flatMap (fun sp =>
          (splitSegs (sortLenDesc (dedupFirst (extractCustom delimiter))) sp.1).map
            (fun sub => mkCustomChunk tok sub sp.2)) := by
    intro delimiter sections ctn p hcus
    unfold naiveMerge
    by_cases hs : sections = []
    · subst hs; simp
    · rw [if_neg hs, if_neg hcus]
      exact customChunks_eq_flatMap tok _ sections
  refine ⟨?_, ?_⟩
  · intro ctn p
    rw [hgen c2delim [(c2input, [])] ctn p (by decide)]
    have hsegs : splitSegs (sortLenDesc (dedupFirst (extractCustom c2delim))) c2input =
        ["a".toList, "b".toList, "c".toList] := by decide
    simp [hsegs, mkCustomChunk_no_pos]
  · intro delimiter sections ctn ctn' p hcus
    refine ⟨hgen delimiter sections ctn p hcus, ?_, ?_⟩
    · rw [hgen delimiter sections ctn p hcus]
      rw [List.length_flatMap]
      apply congrArg List.sum
      apply List.map_congr_left
      intro sp _
      simp [List.length_map]
    · rw [hgen delimiter sections ctn p hcus, hgen delimiter sections ctn' p hcus]

/-- Witness for C2 at a concrete token counter and budgets. -/
theorem c2_custom_hard_split_witness :
    naiveMerge tokByLength c2delim [(c2input, [])] 7 0 =
      ["\na".toList, "\nb".toList, "\nc".toList] ∧
    naiveMerge tokByLength c2delim [(c2input, [])] 7 0 =
      naiveMerge tokByLength c2delim [(c2input, [])] 9999 0 :=
  ⟨(c2_custom_hard_split tokByLength).1 7 0,
   ((c2_custom_hard_split tokByLength).2 c2delim [(c2input, [])] 7 9999 0 (by decide)).2.2⟩

/-!
## Tree builder (`Node.build_tree`, lines 1246-1263)

The mutable `Node` tree with a traversal stack is modelled purely: a stack
entry records a node under construction (level, accumulated texts, already
completed children); a node is attached to its parent's children when it is
popped (or at the final collapse), which reproduces the source's
attach-at-push order because siblings are popped in push order.  The stack
is a nonempty structure `(top, below)`.
-/

/-- A completed tree node. -/
inductive HTree where
  | node (level : Nat) (texts : List String) (children : List HTree)

/-- The level of a tree node. -/
def HTree.level : HTree → Nat
  | .node l _ _ => l

mutual
/-- Every child's level is strictly greater than its parent's, recursively. -/
def allStrict : HTree → Bool
  | .node lv _ cs => childrenStrict lv cs

/-- `allStrict` over a child list. -/
def childrenStrict : Nat → List HTree → Bool
  | _, [] => true
  | lv, c :: cs => (decide (lv < c.level) && allStrict c) && childrenStrict lv cs
end

mutual
/-- Number of nodes of a tree (root included). -/
def countNodes : HTree → Nat
  | .node _ _ cs => 1 + countNodesList cs

/-- Total node count of a forest. -/
def countNodesList : List HTree → Nat
  | [] => 0
  | c :: cs => countNodes c + countNodesList cs
end

mutual
/-- Number of text entries stored in a tree. -/
def countTexts : HTree → Nat
  | .node _ ts cs => ts.length + countTextsList cs

/-- Total text count of a forest. -/
def countTextsList : List HTree → Nat
  | [] => 0
  | c :: cs => countTexts c + countTextsList cs
end

theorem allStrict_node (lv : Nat) (ts : List String) (cs : List HTree) :
    allStrict (.node lv ts cs) = true ↔ ∀ c ∈ cs, lv < c.level ∧ allStrict c = true := by
  rw [allStrict]
  induction cs with
  | nil => simp [childrenStrict]
  | cons c cs ih =>
    rw [childrenStrict]
    simp only [Bool.and_eq_true, decide_eq_true_eq, List.mem_cons]
    constructor
    · rintro ⟨⟨h1, h2⟩, h3⟩ d hd
      rcases hd with rfl | hd
      · exact ⟨h1, h2⟩
      · exact ih.mp h3 d hd
    · intro h
      exact ⟨⟨(h c (Or.inl rfl)).1, (h c (Or.inl rfl)).2⟩,
        ih.mpr (fun d hd => h d (Or.inr hd))⟩

theorem countNodesList_eq (cs : List HTree) :
    countNodesList cs = (cs.map countNodes).sum := by
  induction cs with
  | nil => rfl
  | cons c cs ih => rw [countNodesList, ih]; simp

theorem countTextsList_eq (cs : List HTree) :
    countTextsList cs = (cs.map countTexts).sum := by
  induction cs with
  | nil => rfl
  | cons c cs ih => rw [countTextsList, ih]; simp

/-- A stack entry: a node under construction. -/
structure SEntry where
  level : Nat
  texts : List String
  children : List HTree

/-- Close a stack entry into a tree node. -/
def SEntry.toTree (e : SEntry) : HTree := .node e.level e.texts e.children

/-- Attach a finished node as the last child of its parent entry. -/
def attachTo (e f : SEntry) : SEntry := ⟨f.level, f.texts, f.children ++ [e.toTree]⟩

/-- The pop loop of `build_tree`:
`while len(stack) > 1 and level <= stack[-1].level: stack.pop()`. -/
def popAttach (lv : Nat) : SEntry → List SEntry → SEntry × List SEntry
  | e, [] => (e, [])
  | e, f :: below =>
    if lv ≤ e.level then popAttach lv (attachTo e f) below else (e, f :: below)

/-- The fold-in test of `build_tree`: `self.depth != -1 and level > self.depth`
(the `-1` sentinel is `none`). -/
def foldBeyond (dlim : Option Nat) (lv : Nat) : Bool :=
  match dlim with
  | some d => decide (lv > d)
  | none => false

/-- One `build_tree` loop iteration over a `(level, text)` line. -/
def stepLine (dlim : Option Nat) (st : SEntry × List SEntry)
    (line : Nat × String) : SEntry × List SEntry :=
  if foldBeyond dlim line.1 then
    (⟨st.1.level, st.1.texts ++ [line.2], st.1.children⟩, st.2)
  else
    (⟨line.1, [line.2], []⟩,
      (popAttach line.1 st.1 st.2).1 :: (popAttach line.1 st.1 st.2).2)

/-- Fold the remaining stack into a single tree. -/
def collapse : SEntry → List SEntry → HTree
  | e, [] => e.toTree
  | e, f :: below => collapse (attachTo e f) below

/-- `Node.build_tree(lines)` on a root entry with the given depth limit. -/
def buildTree (root : SEntry) (dlim : Option Nat)
    (lines : List (Nat × String)) : HTree :=
  collapse (lines.foldl (stepLine dlim) (root, [])).1
    (lines.foldl (stepLine dlim) (root, [])).2

/-- Well-formedness of one stack entry: its completed children already sit
strictly below it. -/
def entryOk (e : SEntry) : Prop :=
  ∀ c ∈ e.children, e.level < c.level ∧ allStrict c = true

/-- Stack invariant: levels strictly decrease from top to bottom, the
bottom entry is the root (level `rl`), and every entry is well formed. -/
def stackInv (rl : Nat) (st : SEntry × List SEntry) : Prop :=
  List.Pairwise (fun a b => b.level < a.level) (st.1 :: st.2)
  ∧ (st.2.getLastD st.1).level = rl
  ∧ ∀ e ∈ st.1 :: st.2, entryOk e

theorem attachTo_entryOk {e f : SEntry} (he : entryOk e) (hf : entryOk f)
    (hlt : f.level < e.level) : entryOk (attachTo e f) := by
  intro c hc
  rcases List.mem_append.mp hc with h | h
  · exact hf c h
  · simp at h
    subst h
    exact ⟨hlt, (allStrict_node e.level e.texts e.children).mpr he⟩

theorem attachTo_stackInv {rl : Nat} {e f : SEntry} {bs : List SEntry}
    (h : stackInv rl (e, f :: bs)) : stackInv rl (attachTo e f, bs) := by
  obtain ⟨hp, hl, hok⟩ := h
  have hfe : f.level < e.level := (List.pairwise_cons.mp hp).1 f (by simp)
  have hpf : List.Pairwise (fun a b => b.level < a.level) (f :: bs) :=
    (List.pairwise_cons.mp hp).2
  refine ⟨?_, ?_, ?_⟩
  · rw [List.pairwise_cons]
    refine ⟨?_, (List.pairwise_cons.mp hpf).2⟩
    intro x hx
    have := (List.pairwise_cons.mp hpf).1 x hx
    simpa [attachTo] using this
  · rw [List.getLastD_cons] at hl
    cases bs with
    | nil => simpa [attachTo] using hl
    | cons g gs => rw [List.getLastD_cons] at hl ⊢; exact hl
  · intro x hx
    simp at hx
    rcases hx with rfl | hx
    · exact attachTo_entryOk (hok e (by simp)) (hok f (by simp)) hfe
    · exact hok x (by simp [hx])

theorem popAttach_spec (lv rl : Nat) :
    ∀ (below : List SEntry) (e : SEntry), stackInv rl (e, below) →
      stackInv rl (popAttach lv e below) ∧
      ((popAttach lv e below).2 ≠ [] → (popAttach lv e below).1.level < lv) ∧
      ((popAttach lv e below).2 = [] → (popAttach lv e below).1.level = rl) := by
  intro below
  induction below with
  | nil =>
    intro e h
    refine ⟨h, by simp [popAttach], ?_⟩
    intro _
    exact h.2.1
  | cons f bs ih =>
    intro e h
    rw [popAttach]
    split
    · exact ih (attachTo e f) (attachTo_stackInv h)
    · rename_i hlt
      refine ⟨h, fun _ => ?_, fun hc => by simp at hc⟩
      show e.level < lv
      omega

theorem stepLine_stackInv {rl : Nat} {dlim : Option Nat} {st : SEntry × List SEntry}
    {line : Nat × String} (h : stackInv rl st) (hline : rl < line.1) :
    stackInv rl (stepLine dlim st line) := by
  obtain ⟨e, below⟩ := st
  rw [stepLine]
  split
  · -- fold-in: only the texts of the top change
    obtain ⟨hp, hl, hok⟩ := h
    refine ⟨?_, ?_, ?_⟩
    · rw [List.pairwise_cons] at hp ⊢
      exact ⟨fun x hx => hp.1 x hx, hp.2⟩
    · cases below with
      | nil => exact hl
      | cons g gs => exact hl
    · intro x hx
      simp at hx
      rcases hx with rfl | hx
      · intro c hc
        exact hok e (by simp) c hc
      · exact hok x (by simp [hx])
  · -- push a fresh node above the popped stack
    obtain ⟨hinv', hne', heq'⟩ := popAttach_spec line.1 rl below e h
    set P := popAttach line.1 e below with hP
    have htop : P.1.level < line.1 := by
      by_cases hc : P.2 = []
      · rw [heq' hc]; exact hline
      · exact hne' hc
    obtain ⟨hp', hl', hok'⟩ := hinv'
    refine ⟨?_, ?_, ?_⟩
    · rw [List.pairwise_cons]
      refine ⟨?_, hp'⟩
      intro x hx
      simp at hx
      rcases hx with rfl | hx
      · exact htop
      · have := (List.pairwise_cons.mp hp').1 x hx
        show x.level < line.1
        omega
    · show ((P.1 :: P.2).getLastD _).level = rl
      rw [List.getLastD_cons]
      exact hl'
    · intro x hx
      simp at hx
      rcases hx with rfl | hx
      · intro c hc
        simp at hc
      · exact hok' x (by simpa using hx)

theorem fold_stackInv {rl : Nat} (dlim : Option Nat) :
    ∀ (lines : List (Nat × String)) (st : SEntry × List SEntry),
      stackInv rl st → (∀ q ∈ lines, rl < q.1) →
      stackInv rl (lines.foldl (stepLine dlim) st) := by
  intro lines
  induction lines with
  | nil => intro st h _; exact h
  | cons q rest ih =>
    intro st h hall
    exact ih _ (stepLine_stackInv h (hall q (by simp)))
      (fun r hr => hall r (by simp [hr]))

theorem collapse_allStrict {rl : Nat} :
    ∀ (below : List SEntry) (e : SEntry),
      stackInv rl (e, below) → allStrict (collapse e below) = true := by
  intro below
  induction below with
  | nil =>
    intro e h
    rw [collapse]
    exact (allStrict_node e.level e.texts e.children).mpr (h.2.2 e (by simp))
  | cons f bs ih =>
    intro e h
    rw [collapse]
    exact ih (attachTo e f) (attachTo_stackInv h)

/-- Nodes contributed by one stack entry (itself plus completed children). -/
def entryNodes (e : SEntry) : Nat := 1 + countNodesList e.children

/-- Texts contributed by one stack entry. -/
def entryTexts (e : SEntry) : Nat := e.texts.length + countTextsList e.children

/-- Total node count over the whole stack. -/
def stackNodes (st : SEntry × List SEntry) : Nat :=
  entryNodes st.1 + (st.2.map entryNodes).sum

/-- Total text count over the whole stack. -/
def stackTexts (st : SEntry × List SEntry) : Nat :=
  entryTexts st.1 + (st.2.map entryTexts).sum

theorem countNodesList_append (cs : List HTree) (c : HTree) :
    countNodesList (cs ++ [c]) = countNodesList cs + countNodes c := by
  rw [countNodesList_eq, countNodesList_eq]
  simp

theorem countTextsList_append (cs : List HTree) (c : HTree) :
    countTextsList (cs ++ [c]) = countTextsList cs + countTexts c := by
  rw [countTextsList_eq, countTextsList_eq]
  simp

theorem countNodes_toTree (e : SEntry) :
    countNodes e.toTree = 1 + countNodesList e.children := rfl

theorem countTexts_toTree (e : SEntry) :
    countTexts e.toTree = e.texts.length + countTextsList e.children := rfl

theorem entryNodes_attachTo (e f : SEntry) :
    entryNodes (attachTo e f) = entryNodes f + entryNodes e := by
  simp only [entryNodes, attachTo]
  rw [countNodesList_append, countNodes_toTree]
  omega

theorem entryTexts_attachTo (e f : SEntry) :
    entryTexts (attachTo e f) = entryTexts f + entryTexts e := by
  simp only [entryTexts, attachTo]
  rw [countTextsList_append, countTexts_toTree]
  omega

theorem stackNodes_attachTo (e f : SEntry) (bs : List SEntry) :
    stackNodes (attachTo e f, bs) = stackNodes (e, f :: bs) := by
  simp [stackNodes, entryNodes_attachTo]
  omega

theorem stackTexts_attachTo (e f : SEntry) (bs : List SEntry) :
    stackTexts (attachTo e f, bs) = stackTexts (e, f :: bs) := by
  simp [stackTexts, entryTexts_attachTo]
  omega

theorem popAttach_stackNodes (lv : Nat) :
    ∀ (below : List SEntry) (e : SEntry),
      stackNodes (popAttach lv e below) = stackNodes (e, below) := by
  intro below
  induction below with
  | nil => intro e; rfl
  | cons f bs ih =>
    intro e
    rw [popAttach]
    split
    · rw [ih (attachTo e f), stackNodes_attachTo]
    · rfl

theorem popAttach_stackTexts (lv : Nat) :
    ∀ (below : List SEntry) (e : SEntry),
      stackTexts (popAttach lv e below) = stackTexts (e, below) := by
  intro below
  induction below with
  | nil => intro e; rfl
  | cons f bs ih =>
    intro e
    rw [popAttach]
    split
    · rw [ih (attachTo e f), stackTexts_attachTo]
    · rfl

theorem collapse_countNodes :
    ∀ (below : List SEntry) (e : SEntry),
      countNodes (collapse e below) = stackNodes (e, below) := by
  intro below
  induction below with
  | nil =>
    intro e
    rw [collapse]
    show countNodes (.node e.level e.texts e.children) = _
    rw [countNodes]
    simp [stackNodes, entryNodes]
  | cons f bs ih =>
    intro e
    rw [collapse, ih (attachTo e f), stackNodes_attachTo]

theorem collapse_countTexts :
    ∀ (below : List SEntry) (e : SEntry),
      countTexts (collapse e below) = stackTexts (e, below) := by
  intro below
  induction below with
  | nil =>
    intro e
    rw [collapse]
    show countTexts (.node e.level e.texts e.children) = _
    rw [countTexts]
    simp [stackTexts, entryTexts]
  | cons f bs ih =>
    intro e
    rw [collapse, ih (attachTo e f), stackTexts_attachTo]

theorem stepLine_stackNodes (d : Nat) (st : SEntry × List SEntry) (line : Nat × String) :
    stackNodes (stepLine (some d) st line) =
      stackNodes st + (if line.1 ≤ d then 1 else 0) := by
  obtain ⟨e, below⟩ := st
  rw [stepLine]
  split
  · rename_i hfold
    simp [foldBeyond] at hfold
    rw [if_neg (by omega)]
    show entryNodes ⟨e.level, e.texts ++ [line.2], e.children⟩ + _ = _
    simp [stackNodes, entryNodes]
  · rename_i hfold
    simp [foldBeyond] at hfold
    rw [if_pos (by omega)]
    show entryNodes ⟨line.1, [line.2], []⟩ +
      (entryNodes (popAttach line.1 e below).1 +
        ((popAttach line.1 e below).2.map entryNodes).sum) = _
    have := popAttach_stackNodes line.1 below e
    simp [stackNodes, entryNodes, countNodesList] at this ⊢
    omega

theorem stepLine_stackTexts (dlim : Option Nat) (st : SEntry × List SEntry)
    (line : Nat × String) :
    stackTexts (stepLine dlim st line) = stackTexts st + 1 := by
  obtain ⟨e, below⟩ := st
  rw [stepLine]
  split
  · show entryTexts ⟨e.level, e.texts ++ [line.2], e.children⟩ + _ = _
    simp [stackTexts, entryTexts]
    omega
  · show entryTexts ⟨line.1, [line.2], []⟩ +
      (entryTexts (popAttach line.1 e below).1 +
        ((popAttach line.1 e below).2.map entryTexts).sum) = _
    have := popAttach_stackTexts line.1 below e
    simp [stackTexts, entryTexts, countTextsList] at this ⊢
    omega

theorem fold_stackNodes (d : Nat) :
    ∀ (lines : List (Nat × String)) (st : SEntry × List SEntry),
      stackNodes (lines.foldl (stepLine (some d)) st) =
        stackNodes st + (lines.filter (fun lt => lt.1 ≤ d)).length := by
  intro lines
  induction lines with
  | nil => intro st; simp
  | cons q rest ih =>
    intro st
    rw [List.foldl_cons, ih, stepLine_stackNodes]
    rw [List.filter_cons]
    by_cases hq : q.1 ≤ d
    · rw [if_pos hq, if_pos (by simpa using hq)]
      simp
      omega
    · rw [if_neg hq, if_neg (by simpa using hq)]
      omega

theorem fold_stackTexts (dlim : Option Nat) :
    ∀ (lines : List (Nat × String)) (st : SEntry × List SEntry),
      stackTexts (lines.foldl (stepLine dlim) st) = stackTexts st + lines.length := by
  intro lines
  induction lines with
  | nil => intro st; simp
  | cons q rest ih =>
    intro st
    rw [List.foldl_cons, ih, stepLine_stackTexts]
    simp
    omega

/-- Counterexample to claim C4 as stated: for the line sequence `[(0, "x")]`
(level 0 is allowed by the data model) the built tree attaches a level-0
child under the level-0 root, so a child's level is not strictly greater
than its parent's. -/
theorem c4_child_level_counterexample :
    allStrict (buildTree ⟨0, [], []⟩ (some 5) [(0, "x")]) = false := by decide

/-- Claim C4 (amended): in every tree built by `Node.build_tree` from lines
whose levels all exceed the root's level (as the level assigner guarantees,
its levels being at least 1 against the root's 0), every child's level is
strictly greater than its parent's.  Unconditionally, lines whose level
exceeds the root's depth limit never create a node — the node count is one
plus the number of lines within the limit — while every line's text is
retained somewhere in the tree (the text count is the root's texts plus one
per line). -/
theorem c4_build_tree_invariants (rl : Nat) (rts : List String) (d : Nat)
    (lines : List (Nat × String)) :
    ((∀ q ∈ lines, rl < q.1) →
      allStrict (buildTree ⟨rl, rts, []⟩ (some d) lines) = true)
    ∧ countNodes (buildTree ⟨rl, rts, []⟩ (some d) lines) =
        1 + (lines.filter (fun lt => lt.1 ≤ d)).length
    ∧ countTexts (buildTree ⟨rl, rts, []⟩ (some d) lines) =
        rts.length + lines.length := by
  have hinit : stackInv rl (⟨rl, rts, []⟩, []) := by
    refine ⟨by simp, rfl, ?_⟩
    intro e he c hc
    simp at he
    subst he
    simp at hc
  refine ⟨?_, ?_, ?_⟩
  · intro hall
    unfold buildTree
    exact collapse_allStrict _ _ (fold_stackInv (some d) lines _ hinit hall)
  · unfold buildTree
    rw [collapse_countNodes, show (lines.foldl (stepLine (some d)) (⟨rl, rts, []⟩, [])).1 =
      (lines.foldl (stepLine (some d)) ((⟨rl, rts, []⟩ : SEntry), ([] : List SEntry))).1 from rfl]
    have := fold_stackNodes d lines (⟨rl, rts, []⟩, [])
    rw [show ((lines.foldl (stepLine (some d)) ((⟨rl, rts, []⟩ : SEntry), ([] : List SEntry))).1,
      (lines.foldl (stepLine (some d)) ((⟨rl, rts, []⟩ : SEntry), ([] : List SEntry))).2) =
      lines.foldl (stepLine (some d)) (⟨rl, rts, []⟩, []) from rfl, this]
    simp [stackNodes, entryNodes, countNodesList]
  · unfold buildTree
    rw [collapse_countTexts]
    have := fold_stackTexts (some d) lines (⟨rl, rts, []⟩, [])
    rw [show ((lines.foldl (stepLine (some d)) ((⟨rl, rts, []⟩ : SEntry), ([] : List SEntry))).1,
      (lines.foldl (stepLine (some d)) ((⟨rl, rts, []⟩ : SEntry), ([] : List SEntry))).2) =
      lines.foldl (stepLine (some d)) (⟨rl, rts, []⟩, []) from rfl, this]
    simp [stackTexts, entryTexts, countTextsList]

/-- Witness for the amended C4 at a concrete line sequence. -/
theorem c4_build_tree_invariants_witness :
    allStrict (buildTree ⟨0, [], []⟩ (some 2) [(1, "a"), (3, "b"), (2, "c")]) = true ∧
    countNodes (buildTree ⟨0, [], []⟩ (some 2) [(1, "a"), (3, "b"), (2, "c")]) =
      1 + ([((1 : Nat), "a"), (3, "b"), (2, "c")].filter (fun lt => lt.1 ≤ 2)).length ∧
    countTexts (buildTree ⟨0, [], []⟩ (some 2) [(1, "a"), (3, "b"), (2, "c")]) = 0 + 3 := by
  have h := c4_build_tree_invariants 0 [] 2 [(1, "a"), (3, "b"), (2, "c")]
  exact ⟨h.1 (by decide), h.2.1, by simpa using h.2.2⟩

/-!
## Regular-expression engine and the bullet catalogs

A small Brzozowski-derivative matcher covering the constructs used by
`BULLET_PATTERN` and `not_bullet`: literals, character classes (with
ranges and negation), concatenation, alternation, Kleene star, plus the
derived forms `?`, `+`, `{,2}` and `.` (any character except newline).
`re.match` is anchored prefix matching: `rmatch r s` decides whether some
prefix of `s` matches `r`.
-/

/-- Regular expressions. -/
inductive RE where
  | emp
  | eps
  | chr (c : Char)
  | cls (neg : Bool) (ranges : List (Char × Char))
  | seq (a b : RE)
  | alt (a b : RE)
  | star (a : RE)

/-- Character-class membership. -/
def classMem (c : Char) (neg : Bool) (ranges : List (Char × Char)) : Bool :=
  let inSet := ranges.any (fun r => decide (r.1 ≤ c) && decide (c ≤ r.2))
  if neg then !inSet else inSet

/-- Does the expression accept the empty string? -/
def nullable : RE → Bool
  | .emp => false
  | .eps => true
  | .chr _ => false
  | .cls _ _ => false
  | .seq a b => nullable a && nullable b
  | .alt a b => nullable a || nullable b
  | .star _ => true

/-- Brzozowski derivative with respect to one character. -/
def rederiv (c : Char) : RE → RE
  | .emp => .emp
  | .eps => .emp
  | .chr d => if c = d then .eps else .emp
  | .cls neg rs => if classMem c neg rs then .eps else .emp
  | .seq a b =>
    if nullable a then .alt (.seq (rederiv c a) b) (rederiv c b) else .seq (rederiv c a) b
  | .alt a b => .alt (rederiv c a) (rederiv c b)
  | .star a => .seq (rederiv c a) (.star a)

/-- `re.match(r, s)` as a Boolean: some prefix of `s` matches `r`. -/
def rmatch : RE → Str → Bool
  | r, [] => nullable r
  | r, c :: s => nullable r || rmatch (rederiv c r) s

/-- Anchored full match (used for the `$`-terminated pattern `[0-9]+$`). -/
def rfull : RE → Str → Bool
  | r, [] => nullable r
  | r, c :: s => rfull (rederiv c r) s

/-- Literal string. -/
def strRE : Str → RE
  | [] => .eps
  | c :: s => .seq (.chr c) (strRE s)

/-- Character class listing single characters. -/
def oneOf (cs : List Char) : RE := .cls false (cs.map (fun c => (c, c)))

/-- `r+`. -/
def rplus (r : RE) : RE := .seq r (.star r)

/-- `r?`. -/
def ropt (r : RE) : RE := .alt .eps r

/-- `r{,2}` (zero, one or two occurrences). -/
def rep02 (r : RE) : RE := .alt .eps (.alt r (.seq r r))

/-- `.` (any character except newline). -/
def reDot : RE := .cls true [('\n', '\n')]

/-- The Chinese numeral characters of the catalogs. -/
def cnDigits : List Char :=
  ['零', '一', '二', '三', '四', '五', '六', '七', '八', '九', '十', '百']

/-- `[零一二三四五六七八九十百0-9]`. -/
def cnNumCls : RE := .cls false (cnDigits.map (fun c => (c, c)) ++ [('0', '9')])

/-- `[零一二三四五六七八九十百]`. -/
def cnNumOnly : RE := oneOf cnDigits

/-- `[0-9]`. -/
def reDigit : RE := .cls false [('0', '9')]

/-- `[0-9]+$` as used by the section filters (`$` also matches just before
one trailing newline). -/
def digitsFullRE : RE := .seq (rplus reDigit) (ropt (.chr '\n'))

/-- `BULLET_PATTERN` (lines 169-201): the five body numbering styles. -/
def BULLET_PATTERN : List (List RE) := [[
    .seq (.chr '第') (.seq (rplus cnNumCls)
      (.alt (.seq (ropt (.chr '分')) (.chr '编')) (strRE "部分".toList))),
    .seq (.chr '第') (.seq (rplus cnNumCls) (.chr '章')),
    .seq (.chr '第') (.seq (rplus cnNumCls) (.chr '节')),
    .seq (.chr '第') (.seq (rplus cnNumCls) (.chr '条')),
    .seq (oneOf ['(', '（']) (.seq (rplus cnNumOnly) (oneOf [')', '）']))
  ], [
    .seq (.chr '第') (.seq (rplus reDigit) (.chr '章')),
    .seq (.chr '第') (.seq (rplus reDigit) (.chr '节')),
    .seq (rep02 reDigit) (oneOf ['.', ' ', '、']),
    .seq (rep02 reDigit) (.seq (.chr '.') (.seq (rep02 reDigit)
      (.cls true [('a', 'z'), ('A', 'Z'), ('/', '/'), ('%', '%'), ('~', '~'), ('-', '-')]))),
    .seq (rep02 reDigit) (.seq (.chr '.') (.seq (rep02 reDigit)
      (.seq (.chr '.') (rep02 reDigit)))),
    .seq (rep02 reDigit) (.seq (.chr '.') (.seq (rep02 reDigit)
      (.seq (.chr '.') (.seq (rep02 reDigit) (.seq (.chr '.') (rep02 reDigit))))))
  ], [
    .seq (.chr '第') (.seq (rplus cnNumCls) (.chr '章')),
    .seq (.chr '第') (.seq (rplus cnNumCls) (.chr '节')),
    .seq (rplus cnNumOnly) (oneOf [' ', '、']),
    .seq (oneOf ['(', '（']) (.seq (rplus cnNumOnly) (oneOf [')', '）'])),
    .seq (oneOf ['(', '（']) (.seq (rep02 reDigit) (oneOf [')', '）']))
  ], [
    .seq (strRE "PART ".toList)
      (.alt (strRE "ONE".toList) (.alt (strRE "TWO".toList) (.alt (strRE "THREE".toList)
        (.alt (strRE "FOUR".toList) (.alt (strRE "FIVE".toList) (.alt (strRE "SIX".toList)
          (.alt (strRE "SEVEN".toList) (.alt (strRE "EIGHT".toList)
            (.alt (strRE "NINE".toList) (strRE "TEN".toList)))))))))),
    .seq (strRE "Chapter ".toList)
      (.alt (.seq (rplus (.chr 'I')) (ropt (.chr 'V')))
        (.alt (.seq (.chr 'V') (.star (.chr 'I')))
          (.alt (strRE "XI".toList) (.alt (strRE "IX".toList) (strRE "X".toList))))),
    .seq (strRE "Section ".toList) (rplus reDigit),
    .seq (strRE "Article ".toList) (rplus reDigit)
  ], [
    .seq (.chr '#') (.cls true [('#', '#')]),
    .seq (.chr '#') (.seq (.chr '#') (.cls true [('#', '#')])),
    .seq (strRE "###".toList) (.star reDot),
    .seq (strRE "####".toList) (.star reDot),
    .seq (strRE "#####".toList) (.star reDot),
    .seq (strRE "######".toList) (.star reDot)
  ]]

/-- `not_bullet` (lines 209-213): the shared false-positive filter. -/
def notBullet (line : Str) : Bool :=
  [(.chr '0' : RE),
   .seq (rplus reDigit) (.seq (rplus (.chr ' '))
     (.cls false [('0', '9'), ('~', '~'), ('个', '个'), ('只', '只'), ('-', '-')])),
   .seq (rplus reDigit) (.seq (.chr '.') (rplus (.chr '.')))
  ].any (fun r => rmatch r line)

/-- One style's hit test for one sample line (the inner loop of
`bullets_category`): some pattern of the style matches the stripped line
and the stripped line passes the `not_bullet` filter. -/
def styleHit (pro : List RE) (sec : Str) : Bool :=
  pro.any (fun p => rmatch p (pyStrip sec)) && !notBullet (pyStrip sec)

/-- The per-style hit counts of `bullets_category`. -/
def styleHits (sections : List Str) : List Nat :=
  BULLET_PATTERN.map (fun pro => sections.countP (fun sec => styleHit pro sec))

/-- The selection loop of `bullets_category` (and `qbullets_category`):
starting from `maximum = 0, res = -1`, move to an index only on a strict
improvement. -/
def selectLoop : List Nat → Nat → Int → Nat → Int
  | [], _, res, _ => res
  | h :: hs, i, res, m =>
    if h ≤ m then selectLoop hs (i + 1) res m else selectLoop hs (i + 1) (i : Int) h

/-- `bullets_category(sections)`. -/
def bulletsCategory (sections : List Str) : Int :=
  selectLoop (styleHits sections) 0 (-1) 0

theorem selectLoop_all_le :
    ∀ (hs : List Nat) (i : Nat) (res : Int) (m : Nat),
      (∀ h ∈ hs, h ≤ m) → selectLoop hs i res m = res := by
  intro hs
  induction hs with
  | nil => intro i res m _; rfl
  | cons h hs ih =>
    intro i res m hle
    rw [selectLoop, if_pos (hle h (by simp))]
    exact ih (i + 1) res m (fun x hx => hle x (by simp [hx]))

theorem selectLoop_first_max :
    ∀ (hs : List Nat) (j i : Nat) (res : Int) (m : Nat),
      j < hs.length →
      m < hs.getD j 0 →
      (∀ k, k < j → hs.getD k 0 < hs.getD j 0) →
      (∀ k, k < hs.length → hs.getD k 0 ≤ hs.getD j 0) →
      selectLoop hs i res m = ((i + j : Nat) : Int) := by
  intro hs
  induction hs with
  | nil => intro j i res m hj; simp at hj
  | cons h hs ih =>
    intro j i res m hj hm hfirst hmax
    match j with
    | 0 =>
      rw [List.getD_cons_zero] at hm
      rw [selectLoop, if_neg (by omega)]
      rw [selectLoop_all_le hs (i + 1) (i : Int) h ?_]
      · simp
      · intro x hx
        obtain ⟨k, hk, rfl⟩ := List.mem_iff_getElem.mp hx
        have := hmax (k + 1) (by simp; omega)
        simp only [List.getD_cons_succ, List.getD_cons_zero] at this
        rw [List.getD_eq_getElem?_getD, List.getElem?_eq_getElem hk] at this
        simpa using this
    | j' + 1 =>
      rw [List.getD_cons_succ] at hm
      have hj' : j' < hs.length := by simp at hj; omega
      have hfirst' : ∀ k, k < j' → hs.getD k 0 < hs.getD j' 0 := by
        intro k hk
        have := hfirst (k + 1) (by omega)
        simpa [List.getD_cons_succ] using this
      have hmax' : ∀ k, k < hs.length → hs.getD k 0 ≤ hs.getD j' 0 := by
        intro k hk
        have := hmax (k + 1) (by simp; omega)
        simpa [List.getD_cons_succ] using this
      rw [selectLoop]
      by_cases hcase : h ≤ m
      · rw [if_pos hcase]
        rw [ih j' (i + 1) res m hj' hm hfirst' hmax']
        congr 1
        omega
      · rw [if_neg hcase]
        have hh : h < hs.getD j' 0 := by
          have := hfirst 0 (by omega)
          simpa [List.getD_cons_zero, List.getD_cons_succ] using this
        rw [ih j' (i + 1) (i : Int) h hj' hh hfirst' hmax']
        congr 1
        omega

/-- Claim C5: `bullets_category` returns `-1` when no (trimmed) sample line
matches any style while passing the `not_bullet` filter; otherwise it
returns the first (lowest) index attaining the strictly greatest hit count;
and the result is independent of the order of the samples. -/
theorem c5_bullets_category (sections : List Str) :
    ((∀ pro ∈ BULLET_PATTERN, ∀ sec ∈ sections, styleHit pro sec = false) →
      bulletsCategory sections = -1)
    ∧ (∀ j, j < BULLET_PATTERN.length →
        0 < (styleHits sections).getD j 0 →
        (∀ k, k < j → (styleHits sections).getD k 0 < (styleHits sections).getD j 0) →
        (∀ k, k < BULLET_PATTERN.length →
          (styleHits sections).getD k 0 ≤ (styleHits sections).getD j 0) →
        bulletsCategory sections = (j : Int))
    ∧ (∀ sections', sections.Perm sections' →
        bulletsCategory sections = bulletsCategory sections') := by
  refine ⟨?_, ?_, ?_⟩
  · intro hnone
    unfold bulletsCategory
    apply selectLoop_all_le
    intro h hh
    unfold styleHits at hh
    obtain ⟨pro, hpro, rfl⟩ := List.mem_map.mp hh
    have : ∀ sec ∈ sections, ¬ (styleHit pro sec = true) := by
      intro sec hsec
      rw [hnone pro hpro sec hsec]
      simp
    rw [List.countP_eq_zero.mpr this]
  · intro j hj h0 hfirst hmax
    unfold bulletsCategory
    have hlen : (styleHits sections).length = BULLET_PATTERN.length := by
      unfold styleHits
      simp
    rw [selectLoop_first_max (styleHits sections) j 0 (-1) 0 (by omega) h0 hfirst
      (fun k hk => hmax k (by omega))]
    simp
  · intro sections' hperm
    unfold bulletsCategory styleHits
    have : ∀ pro : List RE,
        sections.countP (fun sec => styleHit pro sec) =
        sections'.countP (fun sec => styleHit pro sec) := by
      intro pro
      exact hperm.countP_eq _
    simp only [this]

/-- Witness for C5: two markdown-heading samples select style index 4. -/
theorem c5_bullets_category_witness :
    bulletsCategory ["# Title".toList, "## Sub".toList] = 4 ∧
    bulletsCategory [] = -1 := by
  constructor
  · exact (c5_bullets_category ["# Title".toList, "## Sub".toList]).2.1 4 (by decide)
      (by decide) (by decide) (by decide)
  · exact (c5_bullets_category []).1 (by intro pro _ sec hsec; simp at hsec)

/-!
## Hierarchical bucket merger (`hierarchical_merge`, lines 772-860)

The group-construction loop (lines 817-836) bucketizes the surviving
sections by level, reverses the bucket list, seeds a group from every
not-yet-read index of the first `depth` buckets, extends it by
binary-searching every deeper bucket, and then marks every member read.
-/

/-- Python `len(txt.split())`: the number of maximal non-whitespace runs;
the Boolean flag records whether the previous character was inside a run. -/
def wordCountGo : Str → Bool → Nat
  | [], _ => 0
  | c :: rest, inWord =>
    if isPyWs c then wordCountGo rest false
    else (if inWord then 0 else 1) + wordCountGo rest true

/-- `not_title(txt)` (lines 717-722) as a Boolean. -/
def notTitle (txt : Str) : Bool :=
  if rmatch (.seq (.chr '第') (.seq (rplus cnNumCls) (.chr '条'))) txt then false
  else if decide (12 < wordCountGo txt false) ||
      (!(txt.contains ' ') && decide (32 ≤ txt.length)) then true
  else txt.any (fun c => [',', ';', '，', '。', '；', '！', '!'].contains c)

/-- `re.search(r"(title|head)", layout)` as a Boolean. -/
def hasTitleLayout (layout : Str) : Bool :=
  containsSub "title".toList layout || containsSub "head".toList layout

/-- The section filter shared by `tree_merge` and `hierarchical_merge`
(lines 778-779): keep sections whose text before the first `@`, stripped,
is longer than one character and is not purely numeric. -/
def hierFilter (sections : List (Str × Str)) : List (Str × Str) :=
  sections.filter (fun sp =>
    !sp.1.isEmpty &&
    decide (1 < (pyStrip (sp.1.takeWhile (fun c => !(c = '@')))).length) &&
    !(rfull digitsFullRE (pyStrip (sp.1.takeWhile (fun c => !(c = '@'))))))

/-- The bucket index assigned to one section by the loop at lines 783-792:
the first matching pattern's index, else the title bucket, else the plain
body bucket. -/
def assignBucket (bull : Nat) (sp : Str × Str) : Nat :=
  match (BULLET_PATTERN.getD bull []).findIdx? (fun p => rmatch p (pyStrip sp.1)) with
  | some j => j
  | none =>
    if hasTitleLayout sp.2 && !notTitle sp.1 then (BULLET_PATTERN.getD bull []).length
    else (BULLET_PATTERN.getD bull []).length + 1

/-- The per-level index buckets `levels` (each ascending, since the
enumeration index increases). -/
def bucketize (bull : Nat) (secs : List (Str × Str)) : List (List Nat) :=
  (List.range ((BULLET_PATTERN.getD bull []).length + 2)).map
    (fun b => (secs.enum.filter (fun isp => decide (assignBucket bull isp.2 = b))).map
      (fun isp => isp.1))

/-- The `binary_search` loop (`while e - s > 1`), fuel-driven; the
`target == arr[i]` case is the source's `assert False`, unreachable because
a seed index never lies in a deeper bucket (buckets are disjoint). -/
def bsLoop (arr : List Nat) (target : Nat) : Nat → Nat → Nat → Nat
  | 0, s, _ => s
  | fuel + 1, s, e =>
    if e - s > 1 then
      if target > arr.getD ((e + s) / 2) 0 then bsLoop arr target fuel ((e + s) / 2) e
      else if target < arr.getD ((e + s) / 2) 0 then bsLoop arr target fuel s ((e + s) / 2)
      else s
    else s

/-- `binary_search(arr, target)` (lines 797-815): `-1` when no element is
below the target, else the index of the greatest element below it. -/
def binSearch (arr : List Nat) (target : Nat) : Int :=
  if arr.isEmpty then -1
  else if target > arr.getLastD 0 then ((arr.length - 1 : Nat) : Int)
  else if target < arr.headD 0 then -1
  else (bsLoop arr target arr.length 0 arr.length : Nat)

/-- The inner extension loop for one seed `j` of bucket `i` (lines 826-834),
including the `i + 1 == len(levels) - 1` skip: binary-search every deeper
bucket, pop the tail when the hit exceeds it, then append the hit. -/
def buildOne (lvls : List (List Nat)) (i j : Nat) : List Nat :=
  if i + 1 = lvls.length - 1 then [j]
  else
    (lvls.drop (i + 1)).foldl (fun g arr =>
      if binSearch arr j < 0 then g
      else
        (if arr.getD (binSearch arr j).toNat 0 > g.getLastD 0 then g.dropLast else g)
          ++ [arr.getD (binSearch arr j).toNat 0]) [j]

/-- One seed consideration of the outer loop (lines 821-836): a read seed is
skipped; an unread seed starts a group, and the seed together with every
member is marked read. -/
def hierStep (lvls : List (List Nat)) (i : Nat)
    (st : List (Nat × List Nat) × List Nat) (j : Nat) :
    List (Nat × List Nat) × List Nat :=
  if j ∈ st.2 then st
  else (st.1 ++ [(j, buildOne lvls i j)], (j :: st.2) ++ buildOne lvls i j)

/-- The group-construction loop of `hierarchical_merge`: for the first
`depth` (already reversed) buckets, seed groups from unread indices.
Returns `(seed, group)` pairs; the source's `cks` is the list of groups. -/
def hierCore (lvls : List (List Nat)) (depth : Nat) : List (Nat × List Nat) :=
  ((lvls.take depth).enum.foldl (fun st ia => ia.2.foldl (hierStep lvls ia.1) st)
    (([] : List (Nat × List Nat)), ([] : List Nat))).1

/-- The index groups built by `hierarchical_merge(bull, sections, depth)`
(the source's `cks` after line 836, before text substitution). -/
def hierGroups (bull : Nat) (sections : List (Str × Str)) (depth : Nat) :
    List (List Nat) :=
  (hierCore ((bucketize bull (hierFilter sections)).reverse) depth).map (fun p => p.2)

/-- The concrete sections for the C6 counterexample: a chapter heading
followed by two plain body lines. -/
def c6sections : List (Str × Str) :=
  [("第1章 X".toList, []), ("hello world".toList, []), ("more text".toList, [])]

/-- Counterexample to claim C6 as stated: with style 1 and depth 1 the
groups are `[[1, 0], [2, 0]]` — the binary-search hit `0` (the chapter
heading) was already consumed by the first group and is appended to the
second group anyway, so the emitted groups are not disjoint. -/
theorem c6_groups_not_disjoint_counterexample :
    ¬ List.Pairwise (fun a b => ∀ x ∈ a, x ∉ b) (hierGroups 1 c6sections 1) := by decide

/-- Claim C6 (amended): the inner loop appends the binary-search hit without
a consumed check, so an index can appear in several emitted groups; what the
read-marking does guarantee is that a later group's *seed* never appeared in
any earlier group (neither as that group's seed nor as a member). -/
theorem c6_seed_never_in_earlier_group (lvls : List (List Nat)) (depth : Nat) :
    List.Pairwise (fun pq new => new.1 ∉ pq.2 ∧ new.1 ≠ pq.1)
      (hierCore lvls depth) := by
  have key : ∀ (st : List (Nat × List Nat) × List Nat),
      (List.Pairwise (fun pq new => new.1 ∉ pq.2 ∧ new.1 ≠ pq.1) st.1 ∧
        ∀ p ∈ st.1, p.1 ∈ st.2 ∧ ∀ x ∈ p.2, x ∈ st.2) →
      ∀ (i : Nat) (js : List Nat),
      (List.Pairwise (fun pq new => new.1 ∉ pq.2 ∧ new.1 ≠ pq.1)
          (js.foldl (hierStep lvls i) st).1 ∧
        ∀ p ∈ (js.foldl (hierStep lvls i) st).1,
          p.1 ∈ (js.foldl (hierStep lvls i) st).2 ∧
          ∀ x ∈ p.2, x ∈ (js.foldl (hierStep lvls i) st).2) := by
    intro st hst i js
    induction js generalizing st with
    | nil => exact hst
    | cons j js ih =>
      apply ih
      unfold hierStep
      split
      · exact hst
      · rename_i hnew
        constructor
        · rw [List.pairwise_append]
          refine ⟨hst.1, by simp, ?_⟩
          intro a ha b hb
          simp at hb
          subst hb
          have hmem := hst.2 a ha
          refine ⟨fun hx => hnew (hmem.2 j hx), fun hx => ?_⟩
          apply hnew
          have hj : j = a.1 := hx
          rw [hj]
          exact hmem.1
        · intro p hp
          rcases List.mem_append.mp hp with h | h
          · have := hst.2 p h
            exact ⟨by simp [this.1], fun x hx => by simp [this.2 x hx]⟩
          · simp at h
            subst h
            refine ⟨by simp, ?_⟩
            intro x hx
            simp
            right
            right
            exact hx
  have outer : ∀ (buckets : List (Nat × List Nat)) (st : List (Nat × List Nat) × List Nat),
      (List.Pairwise (fun pq new => new.1 ∉ pq.2 ∧ new.1 ≠ pq.1) st.1 ∧
        ∀ p ∈ st.1, p.1 ∈ st.2 ∧ ∀ x ∈ p.2, x ∈ st.2) →
      List.Pairwise (fun pq new => new.1 ∉ pq.2 ∧ new.1 ≠ pq.1)
        (buckets.foldl (fun st ia => ia.2.foldl (hierStep lvls ia.1) st) st).1 := by
    intro buckets
    induction buckets with
    | nil => intro st hst; exact hst.1
    | cons ia rest ih =>
      intro st hst
      exact ih _ (key st hst ia.1 ia.2)
  exact outer _ _ ⟨by simp, by simp⟩

/-!
## Media context attacher (`attach_media_context`, lines 361-623)

The claims concern the two scan loops (lines 539-589): walking the
position-ordered chunk list strictly backward / forward from an image or
table chunk, accumulating text-chunk contents, and stopping hard at the
first non-text neighbor or when the per-direction token budget runs out.
-/

/-- A chunk as consumed by `attach_media_context` (the fields the scan
reads). -/
structure MChunk where
  contentWithWeight : Option Str
  text : Option Str
  image : Bool
  docType : Option String

/-- `text_val` of `is_image_chunk`: `content_with_weight` when it is a
string, else the `text` field. -/
def textVal (ck : MChunk) : Option Str :=
  match ck.contentWithWeight with
  | some s => some s
  | none => ck.text

/-- `has_text`: the value is a string with non-blank content. -/
def hasText (ck : MChunk) : Bool :=
  match textVal ck with
  | some s => !(pyStrip s).isEmpty
  | none => false

/-- `is_image_chunk`. -/
def isImageChunk (ck : MChunk) : Bool :=
  ck.docType == some "image" || (ck.image && !hasText ck)

/-- `is_table_chunk`. -/
def isTableChunk (ck : MChunk) : Bool := ck.docType == some "table"

/-- `is_text_chunk`. -/
def isTextChunk (ck : MChunk) : Bool := !isImageChunk ck && !isTableChunk ck

/-- `get_text`. -/
def getTextCk (ck : MChunk) : Str :=
  match ck.contentWithWeight with
  | some s => s
  | none =>
    match ck.text with
    | some s => s
    | none => []

/-- The sentence-ending characters of `split_sentences`
(`[.。！？!?；;：:\n]`). -/
def isSentEnd (c : Char) : Bool :=
  ['.', '。', '！', '？', '!', '?', '；', ';', '：', ':', '\n'].contains c

/-- The buffer loop of `split_sentences` (buffer kept reversed). -/
def splitSentencesGo : Str → Str → List Str
  | [], buf => if buf.isEmpty then [] else [buf.reverse]
  | c :: rest, buf =>
    if isSentEnd c then (c :: buf).reverse :: splitSentencesGo rest []
    else splitSentencesGo rest (c :: buf)

/-- `split_sentences(text)`: sentences keeping their closing punctuation,
plus a trailing unfinished sentence. -/
def splitSentences (s : Str) : List Str := splitSentencesGo s []

/-- The sentence-collecting loop of `trim_to_tokens`: zero-token sentences
are skipped, the first sentence exceeding the remaining budget is taken and
collection stops. -/
def collectLoop (tok : Str → Nat) : List Str → Int → List Str
  | [], _ => []
  | s :: rest, remaining =>
    if tok s = 0 then collectLoop tok rest remaining
    else if (tok s : Int) > remaining then [s]
    else s :: collectLoop tok rest (remaining - tok s)

/-- `trim_to_tokens(text, token_budget, from_tail)`. -/
def trimToTokens (tok : Str → Nat) (text : Str) (budget : Int) (fromTail : Bool) : Str :=
  if budget ≤ 0 || text.isEmpty then []
  else if (splitSentences text).isEmpty then []
  else if fromTail then
    ((collectLoop tok (splitSentences text).reverse budget).reverse).flatten
  else (collectLoop tok (splitSentences text) budget).flatten

/-- The per-direction context scan (lines 544-564 backward, 571-589
forward): `neighbors` lists the chunks in scan order (nearest first),
`fromTail` selects the trim direction.  The loop stops when the budget is
spent or at the first non-text chunk, skips empty and zero-token texts, and
trims an over-budget text at sentence boundaries. -/
def gatherCtx (tok : Str → Nat) (fromTail : Bool) : List MChunk → Int → List Str
  | [], _ => []
  | c :: rest, remaining =>
    if remaining ≤ 0 then []
    else if !isTextChunk c then []
    else if (getTextCk c).isEmpty then gatherCtx tok fromTail rest remaining
    else if tok (getTextCk c) = 0 then gatherCtx tok fromTail rest remaining
    else if (tok (getTextCk c) : Int) > remaining then
      trimToTokens tok (getTextCk c) remaining fromTail ::
        gatherCtx tok fromTail rest
          (remaining - tok (trimToTokens tok (getTextCk c) remaining fromTail))
    else
      getTextCk c :: gatherCtx tok fromTail rest (remaining - tok (getTextCk c))

/-- The backward context of the chunk at sorted position `pos` (collected
nearest-first, reversed into document order as in the source). -/
def prevContext (tok : Str → Nat) (ordered : List MChunk) (pos : Nat)
    (budget : Int) : List Str :=
  (gatherCtx tok true ((ordered.take pos).reverse) budget).reverse

/-- The forward context of the chunk at sorted position `pos`. -/
def nextContext (tok : Str → Nat) (ordered : List MChunk) (pos : Nat)
    (budget : Int) : List Str :=
  gatherCtx tok false (ordered.drop (pos + 1)) budget

theorem gatherCtx_cons (tok : Str → Nat) (fromTail : Bool) (c : MChunk)
    (rest : List MChunk) (remaining : Int) :
    gatherCtx tok fromTail (c :: rest) remaining =
      if remaining ≤ 0 then []
      else if !isTextChunk c then []
      else if (getTextCk c).isEmpty then gatherCtx tok fromTail rest remaining
      else if tok (getTextCk c) = 0 then gatherCtx tok fromTail rest remaining
      else if (tok (getTextCk c) : Int) > remaining then
        trimToTokens tok (getTextCk c) remaining fromTail ::
          gatherCtx tok fromTail rest
            (remaining - tok (trimToTokens tok (getTextCk c) remaining fromTail))
      else
        getTextCk c :: gatherCtx tok fromTail rest (remaining - tok (getTextCk c)) := rfl

/-- Claim C7: the context scans depend only on the maximal run of text-only
chunks adjacent to the target — everything at or beyond the first non-text
chunk in either direction contributes nothing, even when budget remains. -/
theorem c7_context_stops_at_nontext (tok : Str → Nat) :
    (∀ (fromTail : Bool) (neighbors : List MChunk) (remaining : Int),
      gatherCtx tok fromTail neighbors remaining =
        gatherCtx tok fromTail (neighbors.takeWhile isTextChunk) remaining)
    ∧ (∀ (ordered : List MChunk) (pos : Nat) (budget : Int),
        prevContext tok ordered pos budget =
          (gatherCtx tok true (((ordered.take pos).reverse).takeWhile isTextChunk)
            budget).reverse ∧
        nextContext tok ordered pos budget =
          gatherCtx tok false ((ordered.drop (pos + 1)).takeWhile isTextChunk) budget) := by
  have key : ∀ (fromTail : Bool) (neighbors : List MChunk) (remaining : Int),
      gatherCtx tok fromTail neighbors remaining =
        gatherCtx tok fromTail (neighbors.takeWhile isTextChunk) remaining := by
    intro fromTail neighbors
    induction neighbors with
    | nil => intro remaining; rfl
    | cons c rest ih =>
      intro remaining
      by_cases ht : isTextChunk c
      · rw [List.takeWhile_cons_of_pos ht]
        rw [gatherCtx_cons, gatherCtx_cons]
        simp only [ht, Bool.not_true, Bool.false_eq_true, if_false]
        split
        · rfl
        split
        · exact ih remaining
        split
        · exact ih remaining
        split
        · rw [ih]
        · rw [ih]
      · rw [List.takeWhile_cons_of_neg (by simpa using ht)]
        rw [gatherCtx_cons]
        split
        · rfl
        · rw [if_pos (by simpa using ht)]
          rfl
  exact ⟨key, fun ordered pos budget =>
    ⟨congrArg List.reverse (key true _ budget), key false _ budget⟩⟩

/-!
## Image concatenation (`concat_img`, lines 1110-1136)

An image is a row-major pixel grid; `tobytes` is the raw pixel sequence
(the basis of the code's pixel-identity test), `Image.new('RGB', ...)`
yields a black canvas, and `paste(img, (0, y))` overwrites the rectangle
of rows `y ..` with the pasted image's rows from column 0.
-/

/-- An RGB pixel. -/
abbrev Color := Nat × Nat × Nat

/-- An image: a list of pixel rows. -/
structure PImg where
  rows : List (List Color)

/-- `img.size[1]`. -/
def PImg.height (a : PImg) : Nat := a.rows.length

/-- `img.size[0]` (for a well-formed image every row has this length). -/
def PImg.width (a : PImg) : Nat := (a.rows.headD []).length

/-- Well-formedness: all rows have the image's width. -/
def PImg.WF (a : PImg) : Prop := ∀ r ∈ a.rows, r.length = a.width

/-- `img.tobytes()`: the raw pixel sequence. -/
def tobytes (a : PImg) : List Color := a.rows.flatten

/-- The background of `Image.new('RGB', ...)`. -/
def blackColor : Color := (0, 0, 0)

/-- Paste one row at horizontal offset 0 (clipping at the base width is
impossible here because the canvas is at least as wide as both images). -/
def pasteRow (base imgRow : List Color) : List Color :=
  imgRow ++ base.drop imgRow.length

/-- `base.paste(img, (0, oy))` on row grids. -/
def pasteRows (base img : List (List Color)) (oy : Nat) : List (List Color) :=
  base.take oy ++ List.zipWith pasteRow ((base.drop oy).take img.length) img ++
    base.drop (oy + img.length)

/-- `concat_img(img1, img2)`: absent images pass the other through; the same
object or pixel-identical data returns the first unchanged; otherwise a new
`max`-width, summed-height canvas receives `img1` at `(0, 0)` and `img2` at
`(0, height1)`. -/
def concatImg : Option PImg → Option PImg → Option PImg
  | some a, none => some a
  | none, some b => some b
  | none, none => none
  | some a, some b =>
    if tobytes a = tobytes b then some a
    else
      some ⟨pasteRows
        (pasteRows (List.replicate (a.height + b.height)
          (List.replicate (max a.width b.width) blackColor)) a.rows 0)
        b.rows a.height⟩

/-- The pixel at column `x` of row `y`. -/
def getPixel (a : PImg) (x y : Nat) : Option Color :=
  a.rows[y]? >>= fun row => row[x]?

theorem zipWith_replicate_left {α β : Type} (f : α → β → β) (x : α) :
    ∀ (l : List β) (n : Nat), l.length ≤ n →
      List.zipWith f (List.replicate n x) l = l.map (f x) := by
  intro l
  induction l with
  | nil => intro n _; simp
  | cons c cs ih =>
    intro n hn
    match n with
    | m + 1 =>
      rw [List.replicate_succ, List.zipWith_cons_cons, List.map_cons]
      rw [ih m (by simpa using hn)]

theorem concatImg_rows (a b : PImg) (h : tobytes a ≠ tobytes b) :
    concatImg (some a) (some b) = some ⟨
      a.rows.map (pasteRow (List.replicate (max a.width b.width) blackColor)) ++
      b.rows.map (pasteRow (List.replicate (max a.width b.width) blackColor))⟩ := by
  show (if tobytes a = tobytes b then some a else _) = _
  rw [if_neg h]
  congr 1
  congr 1
  have h1 : pasteRows (List.replicate (a.height + b.height)
      (List.replicate (max a.width b.width) blackColor)) a.rows 0 =
      a.rows.map (pasteRow (List.replicate (max a.width b.width) blackColor)) ++
      List.replicate b.height (List.replicate (max a.width b.width) blackColor) := by
    unfold pasteRows
    rw [List.take_zero, List.drop_zero, List.nil_append]
    rw [List.take_replicate, List.drop_replicate]
    have hmin : min a.rows.length (a.height + b.height) = a.rows.length := by
      show min a.rows.length (a.rows.length + b.height) = a.rows.length
      omega
    rw [hmin]
    rw [zipWith_replicate_left _ _ a.rows a.rows.length (le_refl _)]
    congr 1
    show List.replicate (a.rows.length + b.height - (0 + a.rows.length)) _ = _
    congr 1
    omega
  rw [h1]
  unfold pasteRows
  have hlen : (a.rows.map (pasteRow (List.replicate (max a.width b.width) blackColor))).length
      = a.height := by simp [PImg.height]
  rw [show a.height = (a.rows.map (pasteRow (List.replicate (max a.width b.width)
    blackColor))).length from hlen.symm]
  rw [List.take_left, List.drop_left, List.drop_append]
  rw [List.take_replicate]
  have hmin2 : min b.rows.length b.height = b.rows.length := by
    show min b.rows.length b.rows.length = _
    omega
  rw [hmin2]
  rw [zipWith_replicate_left _ _ b.rows b.rows.length (le_refl _)]
  rw [List.drop_replicate]
  simp [PImg.height]

theorem pasteRow_getElem (cw row : List Color) (x : Nat) (hx : x < row.length) :
    (pasteRow cw row)[x]? = row[x]? := by
  unfold pasteRow
  rw [List.getElem?_append_left hx]

/-- C9: `concat_img` passes a present image through unchanged when the other
argument is absent; returns the first argument unchanged when the two are
pixel-identical (hence `concat(img, img) == img`, covering the
same-object case); otherwise it produces a canvas whose width is the maximum
of the two widths and whose height is the sum of the heights, with the first
image's pixels at `(0, 0)` and the second's at `(0, height1)`. -/
theorem c9_concat_img :
    (∀ a : PImg, concatImg (some a) none = some a ∧ concatImg none (some a) = some a) ∧
    concatImg none none = none ∧
    (∀ a b : PImg, tobytes a = tobytes b → concatImg (some a) (some b) = some a) ∧
    (∀ a : PImg, concatImg (some a) (some a) = some a) ∧
    (∀ a b : PImg, PImg.WF a → PImg.WF b → tobytes a ≠ tobytes b →
      ∃ r : PImg, concatImg (some a) (some b) = some r ∧
        r.height = a.height + b.height ∧
        r.width = max a.width b.width ∧
        (∀ x y, y < a.height → x < a.width → getPixel r x y = getPixel a x y) ∧
        (∀ x y, y < b.height → x < b.width →
          getPixel r x (a.height + y) = getPixel b x y)) := by
  refine ⟨fun a => ⟨rfl, rfl⟩, rfl, ?_, ?_, ?_⟩
  · intro a b hb
    show (if tobytes a = tobytes b then some a else
      some ⟨pasteRows (pasteRows (List.replicate (a.height + b.height)
        (List.replicate (max a.width b.width) blackColor)) a.rows 0) b.rows a.height⟩)
      = some a
    rw [if_pos hb]
  · intro a
    show (if tobytes a = tobytes a then some a else
      some ⟨pasteRows (pasteRows (List.replicate (a.height + a.height)
        (List.replicate (max a.width a.width) blackColor)) a.rows 0) a.rows a.height⟩)
      = some a
    rw [if_pos rfl]
  · intro a b hwa hwb hne
    refine ⟨⟨a.rows.map (pasteRow (List.replicate (max a.width b.width) blackColor)) ++
      b.rows.map (pasteRow (List.replicate (max a.width b.width) blackColor))⟩,
      concatImg_rows a b hne, by simp [PImg.height], ?_, ?_, ?_⟩
    · -- width of the new canvas
      cases ha : a.rows with
      | cons ra t =>
        have hra : a.width = ra.length := by simp [PImg.width, ha]
        have hle : a.width ≤ max a.width b.width := le_max_left _ _
        simp only [PImg.width, ha, List.map_cons, List.cons_append, List.headD_cons,
          pasteRow, List.length_append, List.length_drop, List.length_replicate]
        omega
      | nil =>
        have hwa0 : a.width = 0 := by simp [PImg.width, ha]
        cases hb : b.rows with
        | nil =>
          have hwb0 : b.width = 0 := by simp [PImg.width, hb]
          simp [PImg.width, ha, hb, hwa0, hwb0]
        | cons rb t =>
          have hrb : b.width = rb.length := by simp [PImg.width, hb]
          have hle : b.width ≤ max a.width b.width := le_max_right _ _
          simp only [PImg.width, ha, hb, List.map_nil, List.map_cons, List.nil_append,
            List.cons_append, List.headD_cons, pasteRow, List.length_append,
            List.length_drop, List.length_replicate]
          omega
    · -- pixels of the first image, pasted at (0, 0)
      intro x y hy hx
      have hyr : y < a.rows.length := hy
      have hyA : y < (a.rows.map (pasteRow (List.replicate (max a.width b.width)
        blackColor))).length := by simpa using hyr
      unfold getPixel
      show ((a.rows.map (pasteRow (List.replicate (max a.width b.width) blackColor)) ++
        b.rows.map (pasteRow (List.replicate (max a.width b.width) blackColor)))[y]?
          >>= fun row => row[x]?) = _
      rw [List.getElem?_append_left hyA, List.getElem?_map, List.getElem?_eq_getElem hyr]
      have hxr : x < (a.rows[y]).length := by
        rw [hwa (a.rows[y]) (List.getElem_mem hyr)]; exact hx
      show (pasteRow (List.replicate (max a.width b.width) blackColor) (a.rows[y]))[x]?
        = (a.rows[y])[x]?
      exact pasteRow_getElem _ _ _ hxr
    · -- pixels of the second image, pasted at (0, height1)
      intro x y hy hx
      have hyr : y < b.rows.length := hy
      have hlenA : (a.rows.map (pasteRow (List.replicate (max a.width b.width)
        blackColor))).length = a.height := by simp [PImg.height]
      unfold getPixel
      show ((a.rows.map (pasteRow (List.replicate (max a.width b.width) blackColor)) ++
        b.rows.map (pasteRow (List.replicate (max a.width b.width) blackColor)))[a.height + y]?
          >>= fun row => row[x]?) = _
      rw [List.getElem?_append_right (by omega)]
      rw [show a.height + y - (a.rows.map (pasteRow (List.replicate (max a.width b.width)
        blackColor))).length = y by omega]
      rw [List.getElem?_map, List.getElem?_eq_getElem hyr]
      have hxr : x < (b.rows[y]).length := by
        rw [hwb (b.rows[y]) (List.getElem_mem hyr)]; exact hx
      show (pasteRow (List.replicate (max a.width b.width) blackColor) (b.rows[y]))[x]?
        = (b.rows[y])[x]?
      exact pasteRow_getElem _ _ _ hxr

/-- The two concrete images of the C9 witness. -/
def pimgA : PImg := ⟨[[(1, 2, 3)]]⟩

/-- Second witness image: 1 pixel wide, 2 pixels tall. -/
def pimgB : PImg := ⟨[[(4, 5, 6)], [(7, 8, 9)]]⟩

/-- Witness for C9 at two concrete images. -/
theorem c9_concat_img_witness :
    (tobytes pimgA = tobytes pimgA → concatImg (some pimgA) (some pimgA) = some pimgA) ∧
    (PImg.WF pimgA ∧ PImg.WF pimgB ∧ tobytes pimgA ≠ tobytes pimgB) ∧
    (∃ r : PImg, concatImg (some pimgA) (some pimgB) = some r ∧
        r.height = pimgA.height + pimgB.height ∧
        r.width = max pimgA.width pimgB.width ∧
        (∀ x y, y < pimgA.height → x < pimgA.width → getPixel r x y = getPixel pimgA x y) ∧
        (∀ x y, y < pimgB.height → x < pimgB.width →
          getPixel r x (pimgA.height + y) = getPixel pimgB x y)) :=
  ⟨c9_concat_img.2.2.1 pimgA pimgA,
    ⟨by unfold PImg.WF; decide, by unfold PImg.WF; decide, by decide⟩,
    c9_concat_img.2.2.2.2 pimgA pimgB (by unfold PImg.WF; decide)
      (by unfold PImg.WF; decide) (by decide)⟩

/-!
## Position-tag round trip (`_line_tag`, lines 399-423; `extract_positions`,
lines 583-603)

Coordinates are modelled as rationals; Python's `"{:.1f}"` formatting is
banker's rounding (round half to even) of the value scaled by ten.  The tag
grammar (`matchTag` above) is the regex `@@[0-9-]+\t[0-9.\t]+##`, whose
character classes exclude their follow characters, so greedy matching is
maximal-run scanning.  A `ValueError` inside the parsing loop (too few or
too many tab-separated fields, or a malformed number) is modelled as the
tag yielding no position.
-/

/-- Round half to even, the rounding of Python's float formatting. -/
def roundHalfEven (q : ℚ) : Int :=
  if q - ⌊q⌋ < 1 / 2 then ⌊q⌋
  else if 1 / 2 < q - ⌊q⌋ then ⌊q⌋ + 1
  else if ⌊q⌋ % 2 = 0 then ⌊q⌋ else ⌊q⌋ + 1

/-- A coordinate as reported back by `extract_positions`: the emitted value
rounded to one decimal place. -/
def round1 (q : ℚ) : ℚ := (roundHalfEven (q * 10) : ℚ) / 10

/-- Python `"{:.1f}".format(q)`: one decimal place, rounding half to even. -/
def fmt1 (q : ℚ) : Str :=
  if roundHalfEven (q * 10) < 0 then
    '-' :: (natDigits ((roundHalfEven (q * 10)).natAbs / 10) ++
      '.' :: natDigits ((roundHalfEven (q * 10)).natAbs % 10))
  else
    natDigits ((roundHalfEven (q * 10)).toNat / 10) ++
      '.' :: natDigits ((roundHalfEven (q * 10)).toNat % 10)

/-- `_line_tag` for a single-page box: pn = `[page_idx + 1]`, so the joined
page field is `str(page_idx + 1)`, followed by the four coordinates with one
decimal place, wrapped in `@@`...`##`. -/
def lineTag (pageIdx : Nat) (x0 x1 top bott : ℚ) : Str :=
  '@' :: '@' :: ((natDigits (pageIdx + 1) ++
    '\t' :: (fmt1 x0 ++ '\t' :: (fmt1 x1 ++ '\t' :: (fmt1 top ++ '\t' ::
      (fmt1 bott ++ ['#', '#']))))))

/-- `re.findall` of the tag grammar: scan left to right, emit each
non-overlapping match (its page field and coordinate field) and resume after
it. -/
def findTagsF : Nat → Str → List (Str × Str)
  | 0, _ => []
  | _ + 1, [] => []
  | fuel + 1, c :: cs =>
    match matchTag (c :: cs) with
    | some ((pn, co), rest) => (pn, co) :: findTagsF fuel rest
    | none => findTagsF fuel cs

/-- All position tags of a text, in order. -/
def findTags (s : Str) : List (Str × Str) := findTagsF s.length s

/-- The digit fold of Python `int`. -/
def digitsVal (s : Str) : Nat := s.foldl (fun acc c => acc * 10 + (c.toNat - 48)) 0

/-- The integer-part/fraction-part cases of Python `float`, after splitting
on the decimal point. -/
def parseFloatParts : List Str → Option ℚ
  | [ip] => if ip ≠ [] ∧ ip.all Char.isDigit then some (digitsVal ip : ℚ) else none
  | [ip, fp] =>
    if (ip ≠ [] ∨ fp ≠ []) ∧ ip.all Char.isDigit ∧ fp.all Char.isDigit then
      some ((digitsVal ip : ℚ) + (digitsVal fp : ℚ) / 10 ^ fp.length)
    else none
  | _ => none

/-- Python `float(s)` on the digit-and-dot strings that a coordinate field
can contain: `none` is a `ValueError`. -/
def parseFloat (s : Str) : Option ℚ := parseFloatParts (splitOnChar '.' s)

/-- Python `int` applied to every field, failing if any fails. -/
def mapParseNat : List Str → Option (List Nat)
  | [] => some []
  | s :: rest =>
    match parseNat s, mapParseNat rest with
    | some n, some ns => some (n :: ns)
    | _, _ => none

/-- `[int(p) - 1 for p in pn.split("-")]`. -/
def parsePages (pn : Str) : Option (List Int) :=
  (mapParseNat (splitOnChar '-' pn)).map (List.map (fun n : Nat => (n : Int) - 1))

/-- Unpack exactly five tab-separated fields (the page field plus four
coordinate fields), then the four floats, then the page numbers. -/
def parseTagFields (pn : Str) : List Str → Option (List Int × ℚ × ℚ × ℚ × ℚ)
  | [l, r, t, b] =>
    match parseFloat l, parseFloat r, parseFloat t, parseFloat b with
    | some lv, some rv, some tv, some bv =>
      (parsePages pn).map (fun ps => (ps, lv, rv, tv, bv))
    | _, _, _, _ => none
  | _ => none

/-- Parse one matched tag (already split by the strip calls into its page
field and coordinate field). -/
def parseTag (pn co : Str) : Option (List Int × ℚ × ℚ × ℚ × ℚ) :=
  parseTagFields pn (splitOnChar '\t' co)

/-- `MinerUParser.extract_positions`. -/
def extractPositions (txt : Str) : List (List Int × ℚ × ℚ × ℚ × ℚ) :=
  (findTags txt).filterMap (fun pc => parseTag pc.1 pc.2)

theorem takeWhile_append_all {q : Char → Bool} {l : Str} (r : Str)
    (h : ∀ c ∈ l, q c = true) :
    List.takeWhile q (l ++ r) = l ++ List.takeWhile q r := by
  induction l with
  | nil => simp
  | cons c cs ih =>
    have hc : q c = true := h c (List.mem_cons_self c cs)
    rw [List.cons_append, List.takeWhile_cons_of_pos hc, List.cons_append]
    rw [ih (fun d hd => h d (List.mem_cons_of_mem c hd))]

theorem dropWhile_append_all {q : Char → Bool} {l : Str} (r : Str)
    (h : ∀ c ∈ l, q c = true) :
    List.dropWhile q (l ++ r) = List.dropWhile q r := by
  induction l with
  | nil => simp
  | cons c cs ih =>
    have hc : q c = true := h c (List.mem_cons_self c cs)
    rw [List.cons_append, List.dropWhile_cons_of_pos hc]
    exact ih (fun d hd => h d (List.mem_cons_of_mem c hd))

theorem splitOnChar_no_sep (sep : Char) (l : Str) (h : ∀ c ∈ l, c ≠ sep) :
    splitOnChar sep l = [l] := by
  induction l with
  | nil => rfl
  | cons c cs ih =>
    have hc : c ≠ sep := h c (List.mem_cons_self c cs)
    have ih' := ih (fun d hd => h d (List.mem_cons_of_mem c hd))
    simp [splitOnChar, hc, ih']

theorem splitOnChar_append_sep (sep : Char) (l r : Str) (h : ∀ c ∈ l, c ≠ sep) :
    splitOnChar sep (l ++ sep :: r) = l :: splitOnChar sep r := by
  induction l with
  | nil => simp [splitOnChar]
  | cons c cs ih =>
    have hc : c ≠ sep := h c (List.mem_cons_self c cs)
    have ih' := ih (fun d hd => h d (List.mem_cons_of_mem c hd))
    simp [splitOnChar, hc, ih']

theorem digitCh_facts : ∀ d < 10, (digitCh d).isDigit = true ∧ (digitCh d).toNat = 48 + d := by
  decide

theorem isDigit_isPnChar {c : Char} (h : c.isDigit = true) : isPnChar c = true := by
  simp [isPnChar, h]

theorem isDigit_isCoordChar {c : Char} (h : c.isDigit = true) : isCoordChar c = true := by
  simp [isCoordChar, h]

theorem isDigit_ne {c : Char} (h : c.isDigit = true) :
    c ≠ '\t' ∧ c ≠ '.' ∧ c ≠ '-' ∧ c ≠ '#' := by
  refine ⟨?_, ?_, ?_, ?_⟩ <;>
    (intro hc; rw [hc] at h; exact absurd h (by decide))

theorem digitsVal_append_singleton (l : Str) (c : Char) :
    digitsVal (l ++ [c]) = digitsVal l * 10 + (c.toNat - 48) := by
  simp [digitsVal, List.foldl_append]

theorem natDigitsF_spec :
    ∀ fuel n, n < fuel →
      natDigitsF fuel n ≠ [] ∧ (∀ c ∈ natDigitsF fuel n, c.isDigit = true) ∧
      digitsVal (natDigitsF fuel n) = n := by
  intro fuel
  induction fuel with
  | zero => intro n h; omega
  | succ fuel ih =>
    intro n h
    by_cases h10 : n < 10
    · simp only [natDigitsF, if_pos h10]
      refine ⟨by simp, ?_, ?_⟩
      · intro c hc
        simp only [List.mem_singleton] at hc
        rw [hc]
        exact (digitCh_facts n h10).1
      · have h2 := (digitCh_facts n h10).2
        simp [digitsVal, h2]
    · have hrec : n / 10 < fuel := by omega
      simp only [natDigitsF, if_neg h10]
      obtain ⟨hne, hdig, hval⟩ := ih (n / 10) hrec
      refine ⟨by simp, ?_, ?_⟩
      · intro c hc
        rcases List.mem_append.mp hc with hc | hc
        · exact hdig c hc
        · simp only [List.mem_singleton] at hc
          rw [hc]
          exact (digitCh_facts (n % 10) (by omega)).1
      · rw [digitsVal_append_singleton, hval, (digitCh_facts (n % 10) (by omega)).2]
        omega

theorem natDigits_ne_nil (n : Nat) : natDigits n ≠ [] :=
  (natDigitsF_spec (n + 1) n (by omega)).1

theorem natDigits_all_digit (n : Nat) : ∀ c ∈ natDigits n, c.isDigit = true :=
  (natDigitsF_spec (n + 1) n (by omega)).2.1

theorem digitsVal_natDigits (n : Nat) : digitsVal (natDigits n) = n :=
  (natDigitsF_spec (n + 1) n (by omega)).2.2

theorem natDigits_single (m : Nat) (h : m < 10) : natDigits m = [digitCh m] := by
  simp [natDigits, natDigitsF, h]

theorem parseNat_natDigits (n : Nat) : parseNat (natDigits n) = some n := by
  unfold parseNat
  rw [if_neg (natDigits_ne_nil n)]
  have hall : (natDigits n).all Char.isDigit = true := by
    rw [List.all_eq_true]
    exact natDigits_all_digit n
  rw [if_pos hall]
  show some (digitsVal (natDigits n)) = some n
  rw [digitsVal_natDigits]

theorem roundHalfEven_nonneg {q : ℚ} (h : 0 ≤ q) : 0 ≤ roundHalfEven q := by
  unfold roundHalfEven
  have hf : (0 : Int) ≤ ⌊q⌋ := Int.floor_nonneg.mpr h
  split
  · exact hf
  · split
    · omega
    · split <;> omega

theorem fmt1_eq_of_nonneg (q : ℚ) (h : 0 ≤ q) :
    fmt1 q = natDigits ((roundHalfEven (q * 10)).toNat / 10) ++
      '.' :: natDigits ((roundHalfEven (q * 10)).toNat % 10) := by
  unfold fmt1
  rw [if_neg]
  have := roundHalfEven_nonneg (q := q * 10) (mul_nonneg h (by norm_num))
  omega

theorem fmt1_chars {q : ℚ} (h : 0 ≤ q) :
    ∀ c ∈ fmt1 q, c.isDigit = true ∨ c = '.' := by
  rw [fmt1_eq_of_nonneg q h]
  intro c hc
  rcases List.mem_append.mp hc with hc | hc
  · exact Or.inl (natDigits_all_digit _ c hc)
  · rcases List.mem_cons.mp hc with hc | hc
    · exact Or.inr hc
    · exact Or.inl (natDigits_all_digit _ c hc)

theorem fmt1_ne_nil {q : ℚ} (h : 0 ≤ q) : fmt1 q ≠ [] := by
  rw [fmt1_eq_of_nonneg q h]
  simp

theorem fmt1_coordChar {q : ℚ} (h : 0 ≤ q) : ∀ c ∈ fmt1 q, isCoordChar c = true := by
  intro c hc
  rcases fmt1_chars h c hc with hd | hd
  · exact isDigit_isCoordChar hd
  · rw [hd]; decide

theorem fmt1_ne_tab {q : ℚ} (h : 0 ≤ q) : ∀ c ∈ fmt1 q, c ≠ '\t' := by
  intro c hc hct
  rcases fmt1_chars h c hc with hd | hd
  · rw [hct] at hd; exact absurd hd (by decide)
  · rw [hct] at hd; exact absurd hd (by decide)

theorem parseFloat_fmt1 {q : ℚ} (h : 0 ≤ q) :
    parseFloat (fmt1 q) = some (round1 q) := by
  rw [fmt1_eq_of_nonneg q h]
  have hr : (0 : Int) ≤ roundHalfEven (q * 10) :=
    roundHalfEven_nonneg (mul_nonneg h (by norm_num))
  have hs : splitOnChar '.' (natDigits ((roundHalfEven (q * 10)).toNat / 10) ++
      '.' :: natDigits ((roundHalfEven (q * 10)).toNat % 10)) =
      [natDigits ((roundHalfEven (q * 10)).toNat / 10),
       natDigits ((roundHalfEven (q * 10)).toNat % 10)] := by
    rw [splitOnChar_append_sep _ _ _
      (fun c hc => (isDigit_ne (natDigits_all_digit _ c hc)).2.1)]
    rw [splitOnChar_no_sep _ _
      (fun c hc => (isDigit_ne (natDigits_all_digit _ c hc)).2.1)]
  unfold parseFloat
  rw [hs]
  simp only [parseFloatParts]
  rw [if_pos]
  · congr 1
    rw [natDigits_single ((roundHalfEven (q * 10)).toNat % 10) (by omega)]
    show (digitsVal (natDigits ((roundHalfEven (q * 10)).toNat / 10)) : ℚ) +
      (digitsVal [digitCh ((roundHalfEven (q * 10)).toNat % 10)] : ℚ) / 10 ^ 1 = round1 q
    have hd1 : digitsVal [digitCh ((roundHalfEven (q * 10)).toNat % 10)] =
        (roundHalfEven (q * 10)).toNat % 10 := by
      have := digitsVal_natDigits ((roundHalfEven (q * 10)).toNat % 10)
      rw [natDigits_single _ (by omega)] at this
      exact this
    rw [digitsVal_natDigits, hd1]
    unfold round1
    have hcast : ((roundHalfEven (q * 10) : ℚ)) = (((roundHalfEven (q * 10)).toNat : ℚ)) := by
      rw [show roundHalfEven (q * 10) = ((roundHalfEven (q * 10)).toNat : Int) from
        (Int.toNat_of_nonneg hr).symm]
      push_cast
      rfl
    rw [hcast]
    field_simp
    push_cast
    exact_mod_cast Nat.div_add_mod' (roundHalfEven (q * 10)).toNat 10
  · refine ⟨Or.inl (natDigits_ne_nil _), ?_, ?_⟩ <;>
      (rw [List.all_eq_true]; exact natDigits_all_digit _)

theorem parsePages_natDigits (p : Nat) :
    parsePages (natDigits (p + 1)) = some [(p : Int)] := by
  unfold parsePages
  rw [splitOnChar_no_sep _ _
    (fun c hc => (isDigit_ne (natDigits_all_digit _ c hc)).2.2.1)]
  simp only [mapParseNat, parseNat_natDigits, Option.map_some', List.map_cons,
    List.map_nil]
  refine congrArg some (congrArg (fun z => [z]) ?_)
  push_cast
  ring

theorem tagBody_of_fields (pn co rest : Str) (hpn : pn ≠ []) (hco : co ≠ [])
    (hp : ∀ c ∈ pn, isPnChar c = true) (hc : ∀ c ∈ co, isCoordChar c = true) :
    tagBody (pn ++ '\t' :: (co ++ '#' :: '#' :: rest)) = some ((pn, co), rest) := by
  have hdrop1 : List.dropWhile isPnChar (pn ++ '\t' :: (co ++ '#' :: '#' :: rest)) =
      '\t' :: (co ++ '#' :: '#' :: rest) := by
    rw [dropWhile_append_all _ hp, List.dropWhile_cons_of_neg (by decide)]
  have htake1 : List.takeWhile isPnChar (pn ++ '\t' :: (co ++ '#' :: '#' :: rest)) = pn := by
    rw [takeWhile_append_all _ hp, List.takeWhile_cons_of_neg (by decide), List.append_nil]
  have hdrop2 : List.dropWhile isCoordChar (co ++ '#' :: '#' :: rest) =
      '#' :: '#' :: rest := by
    rw [dropWhile_append_all _ hc, List.dropWhile_cons_of_neg (by decide)]
  have htake2 : List.takeWhile isCoordChar (co ++ '#' :: '#' :: rest) = co := by
    rw [takeWhile_append_all _ hc, List.takeWhile_cons_of_neg (by decide), List.append_nil]
  have hcond : (pn.isEmpty || co.isEmpty) = false := by
    cases pn with
    | nil => exact absurd rfl hpn
    | cons a as =>
      cases co with
      | nil => exact absurd rfl hco
      | cons b bs => rfl
  unfold tagBody
  simp only [hdrop1, hdrop2, htake1, htake2]
  rw [if_neg (by rw [hcond]; simp)]

theorem matchTag_cons (s : Str) : matchTag ('@' :: '@' :: s) = tagBody s := rfl

theorem findTagsF_nil (fuel : Nat) : findTagsF fuel [] = [] := by
  cases fuel <;> rfl

theorem findTags_lineTag (p : Nat) (x0 x1 top bott : ℚ)
    (h0 : 0 ≤ x0) (h1 : 0 ≤ x1) (h2 : 0 ≤ top) (h3 : 0 ≤ bott) :
    findTags (lineTag p x0 x1 top bott) =
      [(natDigits (p + 1),
        fmt1 x0 ++ '\t' :: (fmt1 x1 ++ '\t' :: (fmt1 top ++ '\t' :: fmt1 bott)))] := by
  have hco : ∀ c ∈ fmt1 x0 ++ '\t' :: (fmt1 x1 ++ '\t' :: (fmt1 top ++ '\t' :: fmt1 bott)),
      isCoordChar c = true := by
    intro c hc
    rcases List.mem_append.mp hc with hc | hc
    · exact fmt1_coordChar h0 c hc
    · rcases List.mem_cons.mp hc with hc | hc
      · rw [hc]; decide
      rcases List.mem_append.mp hc with hc | hc
      · exact fmt1_coordChar h1 c hc
      rcases List.mem_cons.mp hc with hc | hc
      · rw [hc]; decide
      rcases List.mem_append.mp hc with hc | hc
      · exact fmt1_coordChar h2 c hc
      rcases List.mem_cons.mp hc with hc | hc
      · rw [hc]; decide
      exact fmt1_coordChar h3 c hc
  have hshape : lineTag p x0 x1 top bott = '@' :: '@' :: (natDigits (p + 1) ++
      '\t' :: ((fmt1 x0 ++ '\t' :: (fmt1 x1 ++ '\t' :: (fmt1 top ++ '\t' :: fmt1 bott))) ++
        '#' :: '#' :: ([] : Str))) := by
    simp [lineTag, List.append_assoc]
  have hmatch : matchTag (lineTag p x0 x1 top bott) =
      some ((natDigits (p + 1),
        fmt1 x0 ++ '\t' :: (fmt1 x1 ++ '\t' :: (fmt1 top ++ '\t' :: fmt1 bott))), []) := by
    rw [hshape, matchTag_cons]
    refine tagBody_of_fields _ _ _ (natDigits_ne_nil _) ?_ ?_ hco
    · intro hnil
      exact absurd (congrArg List.length hnil) (by simp [fmt1_ne_nil h0])
    · intro c hc
      exact isDigit_isPnChar (natDigits_all_digit _ c hc)
  unfold findTags
  rw [hshape]
  show findTagsF (List.length _ + 1 + 1) _ = _
  simp only [findTagsF]
  rw [← hshape, hmatch]
  simp [findTagsF_nil]

/-- C8: parsing the tag emitted for a box recovers exactly one position:
the zero-based page index and the four coordinates rounded to one decimal
place (coordinates are nonnegative in the box data model; a negative
coordinate would not even match the extraction regex). -/
theorem c8_extract_inverts_line_tag (p : Nat) (x0 x1 top bott : ℚ)
    (h0 : 0 ≤ x0) (h1 : 0 ≤ x1) (h2 : 0 ≤ top) (h3 : 0 ≤ bott) :
    extractPositions (lineTag p x0 x1 top bott) =
      [([(p : Int)], round1 x0, round1 x1, round1 top, round1 bott)] := by
  have hsplit : splitOnChar '\t'
      (fmt1 x0 ++ '\t' :: (fmt1 x1 ++ '\t' :: (fmt1 top ++ '\t' :: fmt1 bott))) =
      [fmt1 x0, fmt1 x1, fmt1 top, fmt1 bott] := by
    rw [splitOnChar_append_sep _ _ _ (fmt1_ne_tab h0),
      splitOnChar_append_sep _ _ _ (fmt1_ne_tab h1),
      splitOnChar_append_sep _ _ _ (fmt1_ne_tab h2),
      splitOnChar_no_sep _ _ (fmt1_ne_tab h3)]
  have hparse : parseTag (natDigits (p + 1))
      (fmt1 x0 ++ '\t' :: (fmt1 x1 ++ '\t' :: (fmt1 top ++ '\t' :: fmt1 bott))) =
      some ([(p : Int)], round1 x0, round1 x1, round1 top, round1 bott) := by
    unfold parseTag
    rw [hsplit]
    simp only [parseTagFields]
    rw [parseFloat_fmt1 h0, parseFloat_fmt1 h1, parseFloat_fmt1 h2, parseFloat_fmt1 h3]
    show (parsePages (natDigits (p + 1))).map _ = _
    rw [parsePages_natDigits]
    rfl
  unfold extractPositions
  rw [findTags_lineTag p x0 x1 top bott h0 h1 h2 h3]
  simp [hparse]

/-- Witness for C8 at page index 4 and integer coordinates 12, 45, 7, 89. -/
theorem c8_extract_inverts_line_tag_witness :
    extractPositions (lineTag 4 12 45 7 89) =
      [([(4 : Int)], round1 12, round1 45, round1 7, round1 89)] :=
  c8_extract_inverts_line_tag 4 12 45 7 89
    (by decide) (by decide) (by decide) (by decide)
